import Mathlib

/-!
# Verification of the binary search tree of `tuple.cpp`

`tuple.cpp` keeps a binary search tree in heap cells linked by raw pointers:
`InsertInBST` allocates one cell and hangs it below an existing cell by an
in-place write, `MinMaxBST` walks the left and the right spine.

The embedding keeps that memory model.  A heap is the list of the cells
allocated so far, an address is an index into it, and a pointer is an optional
address (`none` is `nullptr`).  `new` appends a cell, so the fresh address is
the length of the heap.  Every `while` loop is a function that is structurally
recursive on a step budget `fuel`; it answers `none` when the budget is used up
or when it would dereference an address that is not allocated.

The `int` values are only ever compared, never added, so they are modelled by
`Int` without any wrap-around.  `new` always succeeds: running out of memory is
not part of the model.
-/

namespace Tuple

/-! ## The data model (`tuple.cpp`, lines 52-56) -/

/-- A heap cell, `struct Node { int value; Node* left; Node* right; }`. -/
structure Node where
  value : Int
  left : Option Nat
  right : Option Nat
deriving DecidableEq

/-- The allocated cells; the address of a cell is its index. -/
abbrev Heap := List Node

/-- A `Node*`: `none` is `nullptr`, `some a` is the address `a`. -/
abbrev Ptr := Option Nat

/-! ## `InsertInBST` (`tuple.cpp`, lines 58-85) -/

/-- The `while (1)` loop of `InsertInBST` (lines 63-81).  `n` is the cell the
loop stands on, `node` the address of the freshly allocated cell and `root` the
pointer that the two `return root` statements hand back.  The heap is written
exactly once, by `n->left = node` or `n->right = node`. -/
def InsertInBST.loop (value : Int) (node root : Nat) (h : Heap) : Nat → Nat → Option (Heap × Ptr)
  | 0, _ => none
  | fuel + 1, n =>
    match h[n]? with
    | none => none
    | some cur =>
      if value ≤ cur.value then
        match cur.left with
        | none => some (h.set n (Node.mk cur.value (some node) cur.right), some root)
        | some l => InsertInBST.loop value node root h fuel l
      else
        match cur.right with
        | none => some (h.set n (Node.mk cur.value cur.left (some node)), some root)
        | some r => InsertInBST.loop value node root h fuel r

/-- The function `InsertInBST(root, value)`: allocate `Node { value, nullptr, nullptr }`,
return it when `root` is null, otherwise run the descent from `root`.  The
result is the heap after the call together with the returned pointer. -/
def InsertInBST (fuel : Nat) (h : Heap) (root : Ptr) (value : Int) : Option (Heap × Ptr) :=
  let node := h.length
  let h1 := h ++ [Node.mk value none none]
  match root with
  | none => some (h1, some node)
  | some r => InsertInBST.loop value node r h1 fuel r

/-! ## `MinMaxBST` (`tuple.cpp`, lines 87-99) -/

/-- The loop `while (leftmostnode->left != nullptr) leftmostnode = leftmostnode->left;`
started at the cell `n`; the answer is the final value of `leftmostnode`. -/
def leftmostnode (h : Heap) : Nat → Nat → Option Nat
  | 0, _ => none
  | fuel + 1, n =>
    match h[n]? with
    | none => none
    | some cur =>
      match cur.left with
      | none => some n
      | some l => leftmostnode h fuel l

/-- The loop `while (rightmostnode->right != nullptr) rightmostnode = rightmostnode->right;`
started at the cell `n`. -/
def rightmostnode (h : Heap) : Nat → Nat → Option Nat
  | 0, _ => none
  | fuel + 1, n =>
    match h[n]? with
    | none => none
    | some cur =>
      match cur.right with
      | none => some n
      | some r => rightmostnode h fuel r

/-- The function `MinMaxBST(root)`: `{ 0, 0 }` for the null pointer, otherwise the
values read at the end of the left and of the right spine.  The heap is only
read. -/
def MinMaxBST (fuel : Nat) (h : Heap) (root : Ptr) : Option (Int × Int) :=
  match root with
  | none => some (0, 0)
  | some r =>
    match leftmostnode h fuel r with
    | none => none
    | some lm =>
      match h[lm]? with
      | none => none
      | some lcell =>
        match rightmostnode h fuel r with
        | none => none
        | some rm =>
          match h[rm]? with
          | none => none
          | some rcell => some (lcell.value, rcell.value)

/-! ## The tree part of `main` (`tuple.cpp`, lines 27-31) -/

/-- The loop `for (auto x : vec) bst = InsertInBST(bst, x);` of `main`, started
in the heap `h` with the pointer `bst`. -/
def buildBST (fuel : Nat) : List Int → Heap → Ptr → Option (Heap × Ptr)
  | [], h, bst => some (h, bst)
  | x :: vec, h, bst =>
    match InsertInBST fuel h bst x with
    | none => none
    | some (h1, bst1) => buildBST fuel vec h1 bst1

/-- Lines 27-31 of `main`: `Node* bst = nullptr;`, the insertion loop over `vec`
and `std::tie(min, max) = MinMaxBST(bst)`, in a heap with nothing allocated. -/
def mainBST (fuel : Nat) (vec : List Int) : Option (Int × Int) :=
  match buildBST fuel vec [] none with
  | none => none
  | some (h, bst) => MinMaxBST fuel h bst

/-! ## The trees that a heap stores

A `PTree` is a finite binary tree whose nodes carry the address and the value
of a heap cell.  `Stored h t` reads the tree `t` off the heap `h`; it leaves no
freedom: the tree stored below a pointer is unique (`Stored.unique`). -/

/-- A finite binary tree of heap cells. -/
inductive PTree where
  | nil : PTree
  | node (addr : Nat) (value : Int) (left right : PTree) : PTree
deriving DecidableEq

/-- The pointer to the root cell of a tree; the empty tree is the null pointer. -/
def PTree.ptr : PTree → Ptr
  | .nil => none
  | .node a _ _ _ => some a

/-- The addresses of the cells of a tree. -/
def PTree.addrs : PTree → List Nat
  | .nil => []
  | .node a _ l r => a :: (l.addrs ++ r.addrs)

/-- The values stored in a tree, left subtree first, then the node, then the
right subtree. -/
def PTree.values : PTree → List Int
  | .nil => []
  | .node _ v l r => l.values ++ v :: r.values

/-- The number of nodes. -/
def PTree.size : PTree → Nat
  | .nil => 0
  | .node _ _ l r => l.size + r.size + 1

/-- The number of nodes on a longest path from the root downwards. -/
def PTree.height : PTree → Nat
  | .nil => 0
  | .node _ _ l r => max l.height r.height + 1

/-- The heap `h` holds the tree `t`: every node of `t` is an allocated cell with
that value whose two links are the pointers to the node's two subtrees. -/
def Stored (h : Heap) : PTree → Prop
  | .nil => True
  | .node a v l r => h[a]? = some (Node.mk v l.ptr r.ptr) ∧ Stored h l ∧ Stored h r

/-- In the heap `h` the pointer `p` points to the tree `t`: the cells below `p`
form `t`, and no cell occurs twice in it (no sharing, no cycle). -/
def IsTree (h : Heap) (p : Ptr) (t : PTree) : Prop :=
  t.ptr = p ∧ Stored h t ∧ t.addrs.Nodup

/-- The ordering invariant of section 3 of the specification: at every node, the
values of the left subtree are at most the node's value and the values of the
right subtree are greater. -/
def Ordered : PTree → Prop
  | .nil => True
  | .node _ v l r =>
    (∀ x ∈ l.values, x ≤ v) ∧ (∀ x ∈ r.values, v < x) ∧ Ordered l ∧ Ordered r

/-- The recursive insertion that the iterative descent is compared with: the new
node, at address `node`, becomes a leaf of the left subtree when
`value <= n.value` and of the right subtree when `value > n.value`. -/
def PTree.insert (node : Nat) (value : Int) : PTree → PTree
  | .nil => .node node value .nil .nil
  | .node a v l r =>
    if value ≤ v then .node a v (l.insert node value) r
    else .node a v l (r.insert node value)

/-- A heap of three cells: the cell 0 holds 5 and links to the cells 1 (left,
holding 2) and 2 (right, holding 9). -/
def sampleHeap : Heap :=
  [Node.mk 5 (some 1) (some 2), Node.mk 2 none none, Node.mk 9 none none]

/-- The tree that `sampleHeap` stores below the address 0. -/
def sampleTree : PTree :=
  PTree.node 0 5 (PTree.node 1 2 PTree.nil PTree.nil) (PTree.node 2 9 PTree.nil PTree.nil)

/-- The tree after inserting the values of `vec` one after the other by the
recursive insertion, the first new node at the address `a`, the next one at
`a + 1`, and so on, as `new` hands the addresses out. -/
def PTree.insertAll : Nat → List Int → PTree → PTree
  | _, [], t => t
  | a, x :: vec, t => PTree.insertAll (a + 1) vec (t.insert a x)

/-- A left-only chain: no node has a right child. -/
def PTree.LeftOnly : PTree → Prop
  | .nil => True
  | .node _ _ l r => r = .nil ∧ l.LeftOnly

/-- A right-only chain: no node has a left child. -/
def PTree.RightOnly : PTree → Prop
  | .nil => True
  | .node _ _ l r => l = .nil ∧ r.RightOnly

/-- The call `MinMaxBST(root)` as a step on the heap: the body of the function
(lines 87-99) has no assignment through a pointer, every statement only reads
cells, so the heap after the call is the heap it was given. -/
def MinMaxBST.call (fuel : Nat) (h : Heap) (root : Ptr) : Option (Heap × (Int × Int)) :=
  match MinMaxBST fuel h root with
  | none => none
  | some res => some (h, res)

/-- Two calls of `MinMaxBST(root)` in succession, the second one in the heap that
the first one leaves; the answer is that last heap and the two pairs. -/
def MinMaxBST.twice (fuel : Nat) (h : Heap) (root : Ptr) :
    Option (Heap × (Int × Int) × (Int × Int)) :=
  match MinMaxBST.call fuel h root with
  | none => none
  | some (h1, first) =>
    match MinMaxBST.call fuel h1 root with
    | none => none
    | some (h2, second) => some (h2, first, second)

/-- A heap whose only cell links to itself on both sides: not a tree. -/
def loopHeap : Heap := [Node.mk 5 (some 0) (some 0)]

end Tuple

/-!
# The swaps of `swap.cpp`

An array, and the storage of a `vector<int>`, is the list of its elements; an
element is addressed by its index, and a read or a write outside the list has
no defined behaviour: the model answers `none`.  The line that every `Swap`
writes to `cout` is left out.  `int` is the 32-bit two's complement type of the
compilers that the files name (Clang and GCC on a 64-bit machine).
-/

namespace SwapCpp

/-- The value of a `size_t` after its conversion to `int`, as in
`const int size = intvec.size();`: reduction into the range from `-2^31` up to
`2^31 - 1`. -/
def toInt (n : Nat) : Int :=
  (((n + 2147483648) % 4294967296 : Nat) : Int) - 2147483648

/-- The function `Swap(int array[], int i, int j)` (lines 176-181):
`int temp = array[i]; array[i] = array[j]; array[j] = temp;`. -/
def Swap_array (array : List Int) (i j : Int) : Option (List Int) :=
  if 0 ≤ i ∧ 0 ≤ j then
    match array[i.toNat]? with
    | none => none
    | some temp =>
      match array[j.toNat]? with
      | none => none
      | some aj => some ((array.set i.toNat aj).set j.toNat temp)
  else none

/-- The template `Swap(T array[], size_t i, size_t j)` (lines 183-189), with the
same three statements. -/
def Swap_T_array {T : Type} (array : List T) (i j : Nat) : Option (List T) :=
  match array[i]? with
  | none => none
  | some temp =>
    match array[j]? with
    | none => none
    | some aj => some ((array.set i aj).set j temp)

/-- The function `Swap(int& x, int& y)` (lines 205-210) called on two elements of
one vector: `x` and `y` are the positions that the two references designate,
`int temp = x; x = y; y = temp;`. -/
def Swap_ref (intvec : List Int) (x y : Nat) : Option (List Int) :=
  match intvec[x]? with
  | none => none
  | some temp =>
    match intvec[y]? with
    | none => none
    | some vy => some ((intvec.set x vy).set y temp)

/-- The loop `for (int i = 0; i < size / 2; i++) Swap(intvec[i], intvec[size - 1 - i]);`
of `main` (lines 42-44), with `k` iterations still to run and the counter at `i`. -/
def main_reverse_ref.loop (size : Int) : Nat → Nat → List Int → Option (List Int)
  | 0, _, intvec => some intvec
  | k + 1, i, intvec =>
    if size - 1 - (i : Int) < 0 then none
    else
      match Swap_ref intvec i (size - 1 - (i : Int)).toNat with
      | none => none
      | some v => main_reverse_ref.loop size k (i + 1) v

/-- Lines 41-44 of `main`: `const int size = intvec.size();` and the loop that
reverses the vector through `Swap(int&, int&)`.  The loop runs `size / 2` times
(the division of C, rounding towards zero), not at all when that is negative. -/
def main_reverse_ref (intvec : List Int) : Option (List Int) :=
  let size : Int := toInt intvec.length
  main_reverse_ref.loop size (Int.tdiv size 2).toNat 0 intvec

/-- The loop `for (int i = 0; i < size / 2; i++) Swap(array, i, size - 1 - i);` of
`main` (lines 53-55), with `k` iterations still to run and the counter at `i`. -/
def main_reverse_array.loop (size : Int) : Nat → Nat → List Int → Option (List Int)
  | 0, _, array => some array
  | k + 1, i, array =>
    match Swap_array array (i : Int) (size - 1 - (i : Int)) with
    | none => none
    | some v => main_reverse_array.loop size k (i + 1) v

/-- Lines 51-55 of `main`: `int* array = intvec.data();` and the loop that
reverses the array through `Swap(int[], int, int)`, with the `size` of line 41. -/
def main_reverse_array (intvec : List Int) : Option (List Int) :=
  let size : Int := toInt intvec.length
  main_reverse_array.loop size (Int.tdiv size 2).toNat 0 intvec

/-- The state of a reversal after `i` swaps, against the original `orig`: the
first `i` and the last `i` positions hold the mirrored elements, the positions
between them are untouched. -/
def Mirrored (orig : List Int) (i : Nat) (v : List Int) : Prop :=
  v.length = orig.length ∧
  ∀ p, p < orig.length →
    v[p]? = if p < i ∨ orig.length - i ≤ p then orig[orig.length - 1 - p]? else orig[p]?

end SwapCpp

/-!
# The maps of `functionpointers.c`

The memory is one list of `int` cells; an array argument is the address of its
first cell, so `input` and `output` may be one and the same array, as in the
calls `map1(output, &square_int, output, size)` of `main`.  A function pointer
is the function it points to, and calling through `(*f)` or through `f` applies
that function.  A read or a write outside the memory answers `none`.
-/

namespace FunctionPointers

/-- The loop of `map1`: `for (i = 0; i < size; i++) output[i] = (*f)(input[i]);`,
with `k` iterations still to run and the counter at `i`. -/
def map1.loop (input : Nat) (f : Int → Int) (output : Nat) : Nat → Nat → List Int → Option (List Int)
  | 0, _, mem => some mem
  | k + 1, i, mem =>
    match mem[input + i]? with
    | none => none
    | some x =>
      if output + i < mem.length then
        map1.loop input f output k (i + 1) (mem.set (output + i) (f x))
      else none

/-- The function `map1(input, f, output, size)` (lines 47-52), whose parameter
is declared `int (*f)(int)`; the answer is the memory after the call. -/
def map1 (mem : List Int) (input : Nat) (f : Int → Int) (output : Nat) (size : Nat) :
    Option (List Int) :=
  map1.loop input f output size 0 mem

/-- The loop of `map2`: `for (i = 0; i < size; i++) output[i] = f(input[i]);`,
with `k` iterations still to run and the counter at `i`. -/
def map2.loop (input : Nat) (f : Int → Int) (output : Nat) : Nat → Nat → List Int → Option (List Int)
  | 0, _, mem => some mem
  | k + 1, i, mem =>
    match mem[input + i]? with
    | none => none
    | some x =>
      if output + i < mem.length then
        map2.loop input f output k (i + 1) (mem.set (output + i) (f x))
      else none

/-- The function `map2(input, f, output, size)` (lines 54-59), whose parameter
is declared `int (*f)(int)`; the answer is the memory after the call. -/
def map2 (mem : List Int) (input : Nat) (f : Int → Int) (output : Nat) (size : Nat) :
    Option (List Int) :=
  map2.loop input f output size 0 mem

/-- The loop of `map3`: `for (i = 0; i < size; i++) output[i] = f(input[i]);`,
with `k` iterations still to run and the counter at `i`. -/
def map3.loop (input : Nat) (f : Int → Int) (output : Nat) : Nat → Nat → List Int → Option (List Int)
  | 0, _, mem => some mem
  | k + 1, i, mem =>
    match mem[input + i]? with
    | none => none
    | some x =>
      if output + i < mem.length then
        map3.loop input f output k (i + 1) (mem.set (output + i) (f x))
      else none

/-- The function `map3(input, f, output, size)` (lines 61-66), whose parameter
is declared `int f(int)`; the answer is the memory after the call. -/
def map3 (mem : List Int) (input : Nat) (f : Int → Int) (output : Nat) (size : Nat) :
    Option (List Int) :=
  map3.loop input f output size 0 mem

/-- The loop of `map4`: `for (i = 0; i < size; i++) output[i] = f(input[i]);`,
with `k` iterations still to run and the counter at `i`. -/
def map4.loop (input : Nat) (f : Int → Int) (output : Nat) : Nat → Nat → List Int → Option (List Int)
  | 0, _, mem => some mem
  | k + 1, i, mem =>
    match mem[input + i]? with
    | none => none
    | some x =>
      if output + i < mem.length then
        map4.loop input f output k (i + 1) (mem.set (output + i) (f x))
      else none

/-- The function `map4(input, f, output, size)` (lines 70-75), whose parameter
is declared `unary_func f`; the answer is the memory after the call. -/
def map4 (mem : List Int) (input : Nat) (f : Int → Int) (output : Nat) (size : Nat) :
    Option (List Int) :=
  map4.loop input f output size 0 mem

/-- The loop of `map5`: `for (i = 0; i < size; i++) output[i] = f(input[i]);`,
with `k` iterations still to run and the counter at `i`. -/
def map5.loop (input : Nat) (f : Int → Int) (output : Nat) : Nat → Nat → List Int → Option (List Int)
  | 0, _, mem => some mem
  | k + 1, i, mem =>
    match mem[input + i]? with
    | none => none
    | some x =>
      if output + i < mem.length then
        map5.loop input f output k (i + 1) (mem.set (output + i) (f x))
      else none

/-- The function `map5(input, f, output, size)` (lines 77-82), whose parameter
is declared `unary_func* f`; the answer is the memory after the call. -/
def map5 (mem : List Int) (input : Nat) (f : Int → Int) (output : Nat) (size : Nat) :
    Option (List Int) :=
  map5.loop input f output size 0 mem

/-- The loop of `map6`: `for (i = 0; i < size; i++) output[i] = f(input[i]);`,
with `k` iterations still to run and the counter at `i`. -/
def map6.loop (input : Nat) (f : Int → Int) (output : Nat) : Nat → Nat → List Int → Option (List Int)
  | 0, _, mem => some mem
  | k + 1, i, mem =>
    match mem[input + i]? with
    | none => none
    | some x =>
      if output + i < mem.length then
        map6.loop input f output k (i + 1) (mem.set (output + i) (f x))
      else none

/-- The function `map6(input, f, output, size)` (lines 86-91), whose parameter
is declared `unary_function f`; the answer is the memory after the call. -/
def map6 (mem : List Int) (input : Nat) (f : Int → Int) (output : Nat) (size : Nat) :
    Option (List Int) :=
  map6.loop input f output size 0 mem

/-- The function `square_int` (lines 101-103), `return x * x;`.  The product of
two `int` that does not fit `int` has no defined behaviour in C; the values that
`main` squares are far from that. -/
def square_int (x : Int) : Int := x * x

end FunctionPointers

/-!
# The parenthesised `MIN` and `MAX` of `minmax.c`

An expression is evaluated in a state of the two `int` variables `x` and `y` of
`test2`; it answers its value and the state after its side effects, or `none`
when an `int` operation overflows (no defined behaviour in C).  The operands of
a binary operator are evaluated from left to right.

The macros of lines 63-64 wrap every parameter and the whole body in
parentheses, so the expansion is a primary expression built from the argument
expressions: the macro is a function on expressions.
-/

namespace MinMaxC

/-- The values of the variables `x` and `y`. -/
structure Vars where
  x : Int
  y : Int
deriving DecidableEq

/-- An expression: from a state to the value and the state after it. -/
abbrev Exp := Vars → Option (Int × Vars)

/-- The values of type `int`. -/
def inRange (n : Int) : Prop := -2147483648 ≤ n ∧ n ≤ 2147483647

instance (n : Int) : Decidable (inRange n) := by
  unfold inRange
  infer_instance

/-- An integer constant. -/
def lit (n : Int) : Exp := fun s => some (n, s)

/-- The variable `x`. -/
def var_x : Exp := fun s => some (s.x, s)

/-- The variable `y`. -/
def var_y : Exp := fun s => some (s.y, s)

/-- An arithmetic operator on two `int` operands. -/
def arith (op : Int → Int → Int) (e1 e2 : Exp) : Exp := fun s =>
  match e1 s with
  | none => none
  | some (a, s1) =>
    match e2 s1 with
    | none => none
    | some (b, s2) => if inRange (op a b) then some (op a b, s2) else none

/-- The product `e1 * e2`. -/
def mul (e1 e2 : Exp) : Exp := arith (fun a b => a * b) e1 e2

/-- The sum `e1 + e2`. -/
def add (e1 e2 : Exp) : Exp := arith (fun a b => a + b) e1 e2

/-- The difference `e1 - e2`. -/
def sub (e1 e2 : Exp) : Exp := arith (fun a b => a - b) e1 e2

/-- The comparison `e1 < e2`, of value 1 or 0. -/
def lt (e1 e2 : Exp) : Exp := fun s =>
  match e1 s with
  | none => none
  | some (a, s1) =>
    match e2 s1 with
    | none => none
    | some (b, s2) => some (if a < b then 1 else 0, s2)

/-- The comparison `e1 > e2`, of value 1 or 0. -/
def gt (e1 e2 : Exp) : Exp := fun s =>
  match e1 s with
  | none => none
  | some (a, s1) =>
    match e2 s1 with
    | none => none
    | some (b, s2) => some (if a > b then 1 else 0, s2)

/-- The conditional `c ? t : e`: `c` is evaluated first, then exactly one of `t`
and `e`, in the state that `c` leaves. -/
def cond (c t e : Exp) : Exp := fun s =>
  match c s with
  | none => none
  | some (v, s1) => if v ≠ 0 then t s1 else e s1

/-- The expression `x++`: the old value of `x`, and `x` one greater afterwards. -/
def x_postinc : Exp := fun s =>
  if inRange (s.x + 1) then some (s.x, Vars.mk (s.x + 1) s.y) else none

/-- The expression `y++`. -/
def y_postinc : Exp := fun s =>
  if inRange (s.y + 1) then some (s.y, Vars.mk s.x (s.y + 1)) else none

/-- The expression `++x`: `x` is made one greater, and that is the value. -/
def x_preinc : Exp := fun s =>
  if inRange (s.x + 1) then some (s.x + 1, Vars.mk (s.x + 1) s.y) else none

/-- The expression `++y`. -/
def y_preinc : Exp := fun s =>
  if inRange (s.y + 1) then some (s.y + 1, Vars.mk s.x (s.y + 1)) else none

/-- The macro `#define MIN(x, y) ((x) < (y) ? (x) : (y))` of line 63. -/
def MIN (x y : Exp) : Exp := cond (lt x y) x y

/-- The macro `#define MAX(x, y) ((x) > (y) ? (x) : (y))` of line 64. -/
def MAX (x y : Exp) : Exp := cond (gt x y) x y

/-- One `printf("%d ", e)`: evaluate `e`, append its value to what was printed. -/
def print (e : Exp) (st : List Int × Vars) : Option (List Int × Vars) :=
  match e st.2 with
  | none => none
  | some (v, s1) => some (st.1 ++ [v], s1)

/-- The nine `printf` of lines 72-87 of `test2`, in order; the answer is the list
of the printed numbers and the state of `x` and `y`.  The first six expressions
are built from constants only, before `int x = 8; int y = 5;`. -/
def test2_first_nine : Option (List Int × Vars) :=
  (print (MIN (lit 5) (lit 3)) ([], Vars.mk 8 5)).bind fun st1 =>
  (print (MAX (lit 5) (lit 3)) st1).bind fun st2 =>
  (print (mul (lit 2) (MIN (lit 5) (lit 3))) st2).bind fun st3 =>
  (print (mul (lit 2) (MAX (lit 5) (lit 3))) st3).bind fun st4 =>
  (print (mul (lit 2) (MIN (lit 3) (lit 5))) st4).bind fun st5 =>
  (print (mul (lit 2) (MAX (lit 3) (lit 5))) st5).bind fun st6 =>
  (print (MIN (sub var_x var_y) (add var_x var_y)) st6).bind fun st7 =>
  (print (MAX (sub var_x var_y) (add var_x var_y)) st7).bind fun st8 =>
  print (MIN (cond (gt var_x var_y) (mul (lit 2) var_x) var_y) (lit 0)) st8

/-- The six numbers printed by lines 90-98 of `test2`: `x = 8; y = 5;`, then
`MIN(x++, y++)`, `x` and `y`; again `x = 8; y = 5;`, then `MIN(++x, ++y)`, `x`
and `y`. -/
def test2_last_six : Option (List Int × Vars) :=
  (print (MIN x_postinc y_postinc) ([], Vars.mk 8 5)).bind fun st1 =>
  (print var_x st1).bind fun st2 =>
  (print var_y st2).bind fun st3 =>
  (print (MIN x_preinc y_preinc) (st3.1, Vars.mk 8 5)).bind fun st4 =>
  (print var_x st4).bind fun st5 =>
  print var_y st5

end MinMaxC

/-!
# The loop of `strings.cpp` that deletes the spaces

A `std::string` is the list of its characters and an iterator is a position in
it: `begin()` is 0 and `end()` is the length.  `std::find` and
`std::string::erase` are library functions; they are modelled from the
documentation that the file cites and from its own comment on lines 76-77
("erases only one char, not until the end; returns the iterator to the next
char").  `erase(position)` is defined only for a position that holds a
character, so never for `end()`.
-/

namespace StringsCpp

/-- The loop inside `std::find(first, last, value)`, with `k` positions still to
look at: `for (; first != last; ++first) if (*first == value) return first;`
and `return last;` after it. -/
def find.loop (s : List Char) (value : Char) : Nat → Nat → Nat
  | 0, first => first
  | k + 1, first =>
    if s[first]? = some value then first else find.loop s value k (first + 1)

/-- The call `std::find(first, last, value)` on positions of the string `s`: the
first position from `first` on that holds `value`, and `last` when there is
none. -/
def find (s : List Char) (first last : Nat) (value : Char) : Nat :=
  find.loop s value (last - first) first

/-- The call `s.erase(position)` with an iterator: the string without the
character at `position`, and the iterator to the character after it, which is
the same position in the shorter string.  There is no answer when `position`
holds no character. -/
def erase (s : List Char) (position : Nat) : Option (List Char × Nat) :=
  if position < s.length then some (s.eraseIdx position, position) else none

/-- How the loop of lines 85-88 ends. -/
inductive Outcome where
  | finished (twolinescopy : List Char) : Outcome
  | eraseAtEnd (twolinescopy : List Char) : Outcome
  | outOfFuel : Outcome
deriving DecidableEq

/-- The loop of lines 85-88,
`for (auto begin = ...; begin != twolinescopy.end();
begin = twolinescopy.erase(std::find(begin, twolinescopy.end(), ' '))) ;`,
from the state in which the string is `twolinescopy` and the iterator is
`begin`.  It is `finished` when `begin` reaches `end()`, and it stops with
`eraseAtEnd` when `erase` is called with an iterator that holds no character,
that is with `end()`. -/
def erase_loop : Nat → List Char → Nat → Outcome
  | 0, _, _ => Outcome.outOfFuel
  | fuel + 1, twolinescopy, begin =>
    if begin = twolinescopy.length then Outcome.finished twolinescopy
    else
      match erase twolinescopy (find twolinescopy begin twolinescopy.length ' ') with
      | none => Outcome.eraseAtEnd twolinescopy
      | some (s1, it) => erase_loop fuel s1 it

/-- Lines 84-88 of `test_substr_erase_insert_replace`: `twolinescopy = twolines;`
and the loop started at `twolinescopy.begin()`. -/
def delete_spaces (fuel : Nat) (twolines : List Char) : Outcome :=
  erase_loop fuel twolines 0

/-- The string `s` with all space characters deleted and the other characters in
their original order. -/
def noSpaces (s : List Char) : List Char :=
  s.filter (fun c => decide (c ≠ ' '))

/-- The string `twolines` of lines 29-36: `line1` with `", "` appended, followed
by `line2` with `'.'` pushed back. -/
def twolines : List Char :=
  (String.toList "Two roads diverged in a yellow wood" ++ String.toList ", ") ++
    (String.toList "And sorry I could not travel both" ++ ['.'])

end StringsCpp

namespace Tuple

/-! ## The array-based `MinMax` (`tuple.cpp`, lines 37-50) -/

/-- The function `std::min(a, b)` of the library: `b` when `b < a`, else `a`. -/
def std_min (a b : Int) : Int := if b < a then b else a

/-- The function `std::max(a, b)` of the library: `b` when `a < b`, else `a`. -/
def std_max (a b : Int) : Int := if a < b then b else a

/-- The loop `for (i = 1; i < size; i++)` of `MinMax` with `k` iterations still
to run and the counter at `i`:
`min = std::min(min, vector[i]); max = std::max(max, vector[i]);`. -/
def MinMax.loop (vector : List Int) : Nat → Nat → Int → Int → Option (Int × Int)
  | 0, _, min, max => some (min, max)
  | k + 1, i, min, max =>
    match vector[i]? with
    | none => none
    | some vi => MinMax.loop vector k (i + 1) (std_min min vi) (std_max max vi)

/-- The function `MinMax(vector)`: `{ 0, 0 }` for the empty vector, otherwise
`min` and `max` start at `vector[0]` and the loop runs over the other elements. -/
def MinMax (vector : List Int) : Option (Int × Int) :=
  let size := vector.length
  if size = 0 then some (0, 0)
  else
    match vector[0]? with
    | none => none
    | some v0 => MinMax.loop vector (size - 1) 1 v0 v0

/-! ## Reading and writing the heap below a stored tree -/

theorem lt_length_of_get {h : Heap} {a : Nat} {c : Node} (e : h[a]? = some c) :
    a < h.length := by
  by_contra hn
  rw [List.getElem?_eq_none (Nat.le_of_not_lt hn)] at e
  cases e

theorem Stored.lt_length {h : Heap} {t : PTree} (s : Stored h t) :
    ∀ a ∈ t.addrs, a < h.length := by
  induction t with
  | nil => intro a ha; cases ha
  | node a v l r ihl ihr =>
    obtain ⟨e, sl, sr⟩ := s
    intro b hb
    simp only [PTree.addrs, List.mem_cons, List.mem_append] at hb
    rcases hb with rfl | hb | hb
    · exact lt_length_of_get e
    · exact ihl sl b hb
    · exact ihr sr b hb

theorem Stored.append {h : Heap} {t : PTree} (e : Heap) (s : Stored h t) :
    Stored (h ++ e) t := by
  induction t with
  | nil => trivial
  | node a v l r ihl ihr =>
    obtain ⟨g, sl, sr⟩ := s
    refine ⟨?_, ihl sl, ihr sr⟩
    rw [List.getElem?_append_left (lt_length_of_get g)]
    exact g

theorem Stored.set {h : Heap} {t : PTree} (c : Nat) (x : Node) (s : Stored h t)
    (hc : c ∉ t.addrs) : Stored (h.set c x) t := by
  induction t with
  | nil => trivial
  | node a v l r ihl ihr =>
    obtain ⟨g, sl, sr⟩ := s
    simp only [PTree.addrs, List.mem_cons, List.mem_append, not_or] at hc
    refine ⟨?_, ihl sl hc.2.1, ihr sr hc.2.2⟩
    rw [List.getElem?_set_ne hc.1]
    exact g

/-- The tree stored below a pointer is determined by the heap and the pointer. -/
theorem Stored.unique {h : Heap} : ∀ {t u : PTree}, Stored h t → Stored h u →
    t.ptr = u.ptr → t = u := by
  intro t
  induction t with
  | nil =>
    intro u _ _ e
    cases u with
    | nil => rfl
    | node => cases e
  | node a v l r ihl ihr =>
    intro u st su e
    cases u with
    | nil => cases e
    | node b w l2 r2 =>
      obtain ⟨g, sl, sr⟩ := st
      obtain ⟨g2, sl2, sr2⟩ := su
      have hab : a = b := by simpa [PTree.ptr] using e
      subst hab
      rw [g] at g2
      have hc : Node.mk v l.ptr r.ptr = Node.mk w l2.ptr r2.ptr := Option.some.inj g2
      injection hc with hv hl hr
      rw [hv, ihl sl sl2 hl, ihr sr sr2 hr]

theorem PTree.insert_node_le (node : Nat) {value v : Int} (a : Nat) (l r : PTree)
    (hv : value ≤ v) :
    (PTree.node a v l r).insert node value = PTree.node a v (l.insert node value) r := by
  rw [PTree.insert, if_pos hv]

theorem PTree.insert_node_gt (node : Nat) {value v : Int} (a : Nat) (l r : PTree)
    (hv : ¬ value ≤ v) :
    (PTree.node a v l r).insert node value = PTree.node a v l (r.insert node value) := by
  rw [PTree.insert, if_neg hv]

theorem PTree.insert_ptr_node (node : Nat) (value : Int) (a : Nat) (v : Int) (l r : PTree) :
    ((PTree.node a v l r).insert node value).ptr = some a := by
  unfold PTree.insert
  split <;> rfl

theorem PTree.insert_addrs_perm (node : Nat) (value : Int) (t : PTree) :
    (t.insert node value).addrs.Perm (node :: t.addrs) := by
  induction t with
  | nil => exact List.Perm.refl _
  | node a v l r ihl ihr =>
    unfold PTree.insert
    split
    · simp only [PTree.addrs]
      refine ((List.Perm.append_right r.addrs ihl).cons a).trans ?_
      exact List.Perm.swap _ _ _
    · simp only [PTree.addrs]
      refine List.Perm.trans (List.Perm.cons a ?_) (List.Perm.swap _ _ _)
      exact (List.Perm.append_left l.addrs ihr).trans List.perm_middle

/-! ## The descent of `InsertInBST` on a stored tree -/

/-- On a stored, non-empty tree whose height is within the budget, the descent
returns `root`, writes one link of one cell of the tree, a link that was null,
and the heap then stores the tree with the new leaf inserted. -/
theorem InsertInBST.loop_spec (value : Int) (node root : Nat) (h : Heap)
    (hnode : h[node]? = some (Node.mk value none none)) :
    ∀ (t : PTree) (fuel a : Nat), t.ptr = some a → Stored h t → t.addrs.Nodup →
      node ∉ t.addrs → t.height ≤ fuel →
      ∃ c cell h1, c ∈ t.addrs ∧ h[c]? = some cell ∧
        ((cell.left = none ∧ h1 = h.set c (Node.mk cell.value (some node) cell.right)) ∨
          (cell.right = none ∧ h1 = h.set c (Node.mk cell.value cell.left (some node)))) ∧
        InsertInBST.loop value node root h fuel a = some (h1, some root) ∧
        Stored h1 (t.insert node value) := by
  intro t
  induction t with
  | nil => intro fuel a e; cases e
  | node b v l r ihl ihr =>
    intro fuel a e st nd hn hf
    have hab : b = a := by simpa [PTree.ptr] using e
    subst hab
    obtain ⟨g, sl, sr⟩ := st
    simp only [PTree.addrs, List.nodup_cons, List.mem_append, not_or, List.nodup_append,
      List.mem_cons] at nd hn
    obtain ⟨⟨hbl, hbr⟩, ndl, ndr, hdis⟩ := nd
    obtain ⟨hnb, hnl, hnr⟩ := hn
    have hfuel : max l.height r.height + 1 ≤ fuel := hf
    obtain ⟨k, rfl⟩ : ∃ k, fuel = k + 1 := ⟨fuel - 1, by omega⟩
    have hkl : l.height ≤ k := by
      have := le_max_left l.height r.height
      omega
    have hkr : r.height ≤ k := by
      have := le_max_right l.height r.height
      omega
    by_cases hv : value ≤ v
    · -- the branch `value <= n->value`
      cases l with
      | nil =>
        refine ⟨b, Node.mk v none r.ptr, _, List.mem_cons_self _ _, g, Or.inl ⟨rfl, rfl⟩, ?_, ?_⟩
        · simp [InsertInBST.loop, g, hv, PTree.ptr]
        · simp only [PTree.insert, if_pos hv]
          refine ⟨?_, ⟨?_, trivial, trivial⟩, sr.set _ _ hbr⟩
          · rw [List.getElem?_set_self (lt_length_of_get g)]
            rfl
          · rw [List.getElem?_set_ne (Ne.symm hnb)]
            exact hnode
      | node la lv ll lr =>
        obtain ⟨c, cell, h1, hc, hcell, hw, hrun, hst⟩ :=
          ihl k la rfl sl ndl hnl hkl
        refine ⟨c, cell, h1, ?_, hcell, hw, ?_, ?_⟩
        · exact List.mem_cons_of_mem _ (List.mem_append_left _ hc)
        · simp only [InsertInBST.loop, g, if_pos hv, PTree.ptr]
          exact hrun
        · have hcb : c ≠ b := fun e => hbl (e ▸ hc)
          have hcr : c ∉ r.addrs := fun hr => hdis hc hr
          have hh : ∃ x, h1 = h.set c x := by
            rcases hw with ⟨_, e⟩ | ⟨_, e⟩ <;> exact ⟨_, e⟩
          obtain ⟨x, rfl⟩ := hh
          rw [PTree.insert_node_le node b _ r hv]
          refine ⟨?_, hst, sr.set _ _ hcr⟩
          rw [List.getElem?_set_ne hcb, PTree.insert_ptr_node]
          exact g
    · -- the branch `value > n->value`
      cases r with
      | nil =>
        refine ⟨b, Node.mk v l.ptr none, _, List.mem_cons_self _ _, g, Or.inr ⟨rfl, rfl⟩, ?_, ?_⟩
        · simp [InsertInBST.loop, g, hv, PTree.ptr]
        · simp only [PTree.insert, if_neg hv]
          refine ⟨?_, sl.set _ _ hbl, ⟨?_, trivial, trivial⟩⟩
          · rw [List.getElem?_set_self (lt_length_of_get g)]
            rfl
          · rw [List.getElem?_set_ne (Ne.symm hnb)]
            exact hnode
      | node ra rv rl rr =>
        obtain ⟨c, cell, h1, hc, hcell, hw, hrun, hst⟩ :=
          ihr k ra rfl sr ndr hnr hkr
        refine ⟨c, cell, h1, ?_, hcell, hw, ?_, ?_⟩
        · exact List.mem_cons_of_mem _ (List.mem_append_right _ hc)
        · simp only [InsertInBST.loop, g, if_neg hv, PTree.ptr]
          exact hrun
        · have hcb : c ≠ b := fun e => hbr (e ▸ hc)
          have hcl : c ∉ l.addrs := fun hl => hdis hl hc
          have hh : ∃ x, h1 = h.set c x := by
            rcases hw with ⟨_, e⟩ | ⟨_, e⟩ <;> exact ⟨_, e⟩
          obtain ⟨x, rfl⟩ := hh
          rw [PTree.insert_node_gt node b l _ hv]
          refine ⟨?_, sl.set _ _ hcl, hst⟩
          rw [List.getElem?_set_ne hcb, PTree.insert_ptr_node]
          exact g

/-- The call `InsertInBST(root, value)` on a stored tree whose height is within
the budget: it returns, the returned pointer points to the tree with the new
leaf inserted, and one cell has been allocated. -/
theorem InsertInBST_spec {h : Heap} {root : Ptr} {t : PTree} (fuel : Nat) (value : Int)
    (ht : IsTree h root t) (hf : t.height ≤ fuel) :
    ∃ h1, InsertInBST fuel h root value = some (h1, (t.insert h.length value).ptr) ∧
      IsTree h1 (t.insert h.length value).ptr (t.insert h.length value) ∧
      h1.length = h.length + 1 := by
  obtain ⟨hp, st, nd⟩ := ht
  have hfresh : h.length ∉ t.addrs := fun hm => Nat.lt_irrefl _ (st.lt_length _ hm)
  have hnd : (t.insert h.length value).addrs.Nodup :=
    (PTree.insert_addrs_perm h.length value t).nodup_iff.mpr (List.nodup_cons.mpr ⟨hfresh, nd⟩)
  cases t with
  | nil =>
    subst hp
    refine ⟨h ++ [Node.mk value none none], rfl, ⟨rfl, ⟨?_, trivial, trivial⟩, hnd⟩, by simp⟩
    exact List.getElem?_concat_length h _
  | node a v l r =>
    subst hp
    obtain ⟨c, cell, h1, _, _, hw, hrun, hst⟩ :=
      InsertInBST.loop_spec value h.length a (h ++ [Node.mk value none none])
        (List.getElem?_concat_length h _) (PTree.node a v l r) fuel a rfl (st.append _) nd
        hfresh hf
    refine ⟨h1, ?_, ⟨rfl, hst, hnd⟩, ?_⟩
    · rw [PTree.insert_ptr_node]
      exact hrun
    · rcases hw with ⟨_, e⟩ | ⟨_, e⟩ <;> simp [e]

/-! ## Values, size and order under insertion -/

theorem PTree.insert_values_perm (node : Nat) (value : Int) (t : PTree) :
    (t.insert node value).values.Perm (value :: t.values) := by
  induction t with
  | nil => exact List.Perm.refl _
  | node a v l r ihl ihr =>
    unfold PTree.insert
    split
    · simp only [PTree.values]
      exact List.Perm.append_right _ ihl
    · simp only [PTree.values]
      refine (List.Perm.append_left l.values ((ihr.cons v).trans (List.Perm.swap _ _ _))).trans ?_
      exact List.perm_middle

theorem PTree.insert_size (node : Nat) (value : Int) (t : PTree) :
    (t.insert node value).size = t.size + 1 := by
  induction t with
  | nil => rfl
  | node a v l r ihl ihr =>
    unfold PTree.insert
    split
    · simp only [PTree.size, ihl]; omega
    · simp only [PTree.size, ihr]; omega

theorem PTree.values_length (t : PTree) : t.values.length = t.size := by
  induction t with
  | nil => rfl
  | node a v l r ihl ihr => simp only [PTree.values, PTree.size, List.length_append,
      List.length_cons, ihl, ihr]; omega

theorem PTree.height_le_size (t : PTree) : t.height ≤ t.size := by
  induction t with
  | nil => exact Nat.le_refl _
  | node a v l r ihl ihr =>
    simp only [PTree.height, PTree.size]
    have := max_le (ihl.trans (Nat.le_add_right _ r.size)) (ihr.trans (Nat.le_add_left _ l.size))
    omega

theorem Ordered.insert (node : Nat) (value : Int) {t : PTree} (ho : Ordered t) :
    Ordered (t.insert node value) := by
  induction t with
  | nil =>
    refine ⟨?_, ?_, trivial, trivial⟩ <;> intro x hx <;> cases hx
  | node a v l r ihl ihr =>
    obtain ⟨hl, hr, ol, or⟩ := ho
    by_cases hv : value ≤ v
    · rw [PTree.insert_node_le node a l r hv]
      refine ⟨?_, hr, ihl ol, or⟩
      intro x hx
      rcases List.mem_cons.mp ((PTree.insert_values_perm node value l).mem_iff.mp hx) with rfl | hx
      · exact hv
      · exact hl x hx
    · rw [PTree.insert_node_gt node a l r hv]
      refine ⟨hl, ?_, ol, ihr or⟩
      intro x hx
      rcases List.mem_cons.mp ((PTree.insert_values_perm node value r).mem_iff.mp hx) with rfl | hx
      · exact lt_of_not_le hv
      · exact hr x hx

/-! ## The two traversals of `MinMaxBST` on a stored tree -/

/-- The left traversal ends, within a budget of the height, on a cell of the
tree; its value is at most every value of an ordered tree. -/
theorem leftmostnode_spec (h : Heap) :
    ∀ (t : PTree) (fuel a : Nat), t.ptr = some a → Stored h t → t.height ≤ fuel →
      ∃ lm cell, leftmostnode h fuel a = some lm ∧ h[lm]? = some cell ∧ cell.left = none ∧
        cell.value ∈ t.values ∧ (Ordered t → ∀ x ∈ t.values, cell.value ≤ x) := by
  intro t
  induction t with
  | nil => intro fuel a e; cases e
  | node b v l r ihl _ =>
    intro fuel a e st hf
    have hab : b = a := by simpa [PTree.ptr] using e
    subst hab
    obtain ⟨g, sl, _⟩ := st
    have hfuel : max l.height r.height + 1 ≤ fuel := hf
    obtain ⟨k, rfl⟩ : ∃ k, fuel = k + 1 := ⟨fuel - 1, by omega⟩
    have hkl : l.height ≤ k := by
      have := le_max_left l.height r.height
      omega
    cases l with
    | nil =>
      refine ⟨b, _, ?_, g, rfl, ?_, ?_⟩
      · simp [leftmostnode, g, PTree.ptr]
      · simp [PTree.values]
      · intro ho x hx
        simp only [PTree.values, List.nil_append, List.mem_cons] at hx
        rcases hx with rfl | hx
        · exact le_refl _
        · exact le_of_lt (ho.2.1 x hx)
    | node la lv ll lr =>
      obtain ⟨lm, cell, hrun, hcell, hnull, hmem, hmin⟩ := ihl k la rfl sl hkl
      refine ⟨lm, cell, ?_, hcell, hnull, ?_, ?_⟩
      · simp only [leftmostnode, g, PTree.ptr]
        exact hrun
      · rw [PTree.values]
        exact List.mem_append_left _ hmem
      · intro ho x hx
        obtain ⟨hl, hr, ol, _⟩ := ho
        rw [PTree.values] at hx
        rcases List.mem_append.mp hx with hx | hx
        · exact hmin ol x hx
        · rcases List.mem_cons.mp hx with rfl | hx
          · exact hl _ hmem
          · exact le_trans (hl _ hmem) (le_of_lt (hr x hx))

/-- The right traversal ends, within a budget of the height, on a cell of the
tree; its value is at least every value of an ordered tree. -/
theorem rightmostnode_spec (h : Heap) :
    ∀ (t : PTree) (fuel a : Nat), t.ptr = some a → Stored h t → t.height ≤ fuel →
      ∃ rm cell, rightmostnode h fuel a = some rm ∧ h[rm]? = some cell ∧ cell.right = none ∧
        cell.value ∈ t.values ∧ (Ordered t → ∀ x ∈ t.values, x ≤ cell.value) := by
  intro t
  induction t with
  | nil => intro fuel a e; cases e
  | node b v l r _ ihr =>
    intro fuel a e st hf
    have hab : b = a := by simpa [PTree.ptr] using e
    subst hab
    obtain ⟨g, _, sr⟩ := st
    have hfuel : max l.height r.height + 1 ≤ fuel := hf
    obtain ⟨k, rfl⟩ : ∃ k, fuel = k + 1 := ⟨fuel - 1, by omega⟩
    have hkr : r.height ≤ k := by
      have := le_max_right l.height r.height
      omega
    cases r with
    | nil =>
      refine ⟨b, _, ?_, g, rfl, ?_, ?_⟩
      · simp [rightmostnode, g, PTree.ptr]
      · simp [PTree.values]
      · intro ho x hx
        simp only [PTree.values, List.mem_append, List.mem_cons, List.not_mem_nil,
          or_false] at hx
        rcases hx with hx | rfl
        · exact ho.1 x hx
        · exact le_refl _
    | node ra rv rl rr =>
      obtain ⟨rm, cell, hrun, hcell, hnull, hmem, hmax⟩ := ihr k ra rfl sr hkr
      refine ⟨rm, cell, ?_, hcell, hnull, ?_, ?_⟩
      · simp only [rightmostnode, g, PTree.ptr]
        exact hrun
      · rw [PTree.values]
        exact List.mem_append_right _ (List.mem_cons_of_mem _ hmem)
      · intro ho x hx
        obtain ⟨hl, hr, _, or⟩ := ho
        rw [PTree.values] at hx
        rcases List.mem_append.mp hx with hx | hx
        · exact le_trans (hl x hx) (le_of_lt (hr _ hmem))
        · rcases List.mem_cons.mp hx with rfl | hx
          · exact le_of_lt (hr _ hmem)
          · exact hmax or x hx

/-- The call `MinMaxBST(root)` on a stored, non-empty tree whose height is within
the budget returns two values of the tree; in an ordered tree they are a lower
and an upper bound of all its values. -/
theorem MinMaxBST_spec (h : Heap) (a : Nat) (t : PTree) (fuel : Nat)
    (hp : t.ptr = some a) (st : Stored h t) (hf : t.height ≤ fuel) :
    ∃ mn mx, MinMaxBST fuel h (some a) = some (mn, mx) ∧ mn ∈ t.values ∧ mx ∈ t.values ∧
      (Ordered t → (∀ x ∈ t.values, mn ≤ x) ∧ (∀ x ∈ t.values, x ≤ mx)) := by
  obtain ⟨lm, lcell, hl, hlc, _, hlmem, hlmin⟩ := leftmostnode_spec h t fuel a hp st hf
  obtain ⟨rm, rcell, hr, hrc, _, hrmem, hrmax⟩ := rightmostnode_spec h t fuel a hp st hf
  refine ⟨lcell.value, rcell.value, ?_, hlmem, hrmem, fun ho => ⟨hlmin ho, hrmax ho⟩⟩
  simp only [MinMaxBST, hl, hlc, hr, hrc]

/-! ## The insertion loop of `main` -/

/-- The insertion loop of `main` on a stored tree, with a budget of the final
number of nodes: it returns, the final pointer points to a tree holding the old
values and the inserted ones, and the ordering invariant is kept. -/
theorem buildBST_spec (fuel : Nat) :
    ∀ (vec : List Int) (h : Heap) (root : Ptr) (t : PTree), IsTree h root t →
      t.size + vec.length ≤ fuel →
      ∃ h1 root1 t1, buildBST fuel vec h root = some (h1, root1) ∧ IsTree h1 root1 t1 ∧
        t1.values.Perm (vec ++ t.values) ∧ t1.size = t.size + vec.length ∧
        (Ordered t → Ordered t1) := by
  intro vec
  induction vec with
  | nil =>
    intro h root t ht _
    exact ⟨h, root, t, rfl, ht, List.Perm.refl _, rfl, id⟩
  | cons x vec ih =>
    intro h root t ht hf
    simp only [List.length_cons] at hf
    obtain ⟨h1, hrun, ht1, _⟩ :=
      InsertInBST_spec fuel x ht (le_trans t.height_le_size (by omega))
    have hsize := PTree.insert_size h.length x t
    obtain ⟨h2, root2, t2, hrun2, ht2, hperm, hsz, hord⟩ :=
      ih h1 _ (t.insert h.length x) ht1 (by omega)
    refine ⟨h2, root2, t2, ?_, ht2, ?_, ?_, fun ho => hord (ho.insert _ _)⟩
    · simp only [buildBST, hrun]
      exact hrun2
    · refine hperm.trans ?_
      refine (List.Perm.append_left vec (PTree.insert_values_perm h.length x t)).trans ?_
      exact List.perm_middle
    · rw [hsz, hsize, List.length_cons]; omega

theorem IsTree.nil (h : Heap) : IsTree h none PTree.nil :=
  ⟨rfl, trivial, List.nodup_nil⟩

/-- Lines 27-31 of `main` on a non-empty vector, with a budget of its length:
the pair that `MinMaxBST` returns consists of a least and a greatest element of
the vector. -/
theorem mainBST_spec (fuel : Nat) (S : List Int) (hS : S ≠ []) (hf : S.length ≤ fuel) :
    ∃ mn mx, mainBST fuel S = some (mn, mx) ∧
      mn ∈ S ∧ (∀ x ∈ S, mn ≤ x) ∧ mx ∈ S ∧ (∀ x ∈ S, x ≤ mx) := by
  obtain ⟨h1, root1, t1, hrun, ⟨hp, st, _⟩, hperm, hsz, hord⟩ :=
    buildBST_spec fuel S [] none PTree.nil (IsTree.nil []) (by simpa [PTree.size] using hf)
  have ho : Ordered t1 := hord trivial
  have hvals : ∀ x, x ∈ t1.values ↔ x ∈ S := by
    intro x
    rw [hperm.mem_iff]
    simp [PTree.values]
  have hsize : t1.size = S.length := by simpa [PTree.size] using hsz
  have hpos : 0 < S.length := List.length_pos.mpr hS
  cases t1 with
  | nil => simp [PTree.size] at hsize; omega
  | node a v l r =>
    subst hp
    obtain ⟨mn, mx, hmm, hmn, hmx, hb⟩ :=
      MinMaxBST_spec h1 a (PTree.node a v l r) fuel rfl st
        (le_trans (PTree.height_le_size _) (by omega))
    obtain ⟨hlo, hhi⟩ := hb ho
    refine ⟨mn, mx, ?_, (hvals mn).mp hmn, fun x hx => hlo x ((hvals x).mpr hx),
      (hvals mx).mp hmx, fun x hx => hhi x ((hvals x).mpr hx)⟩
    simp only [mainBST, hrun]
    exact hmm

/-- Whatever the heap and the budget, a pointer returned by the descent is the
root it was started with. -/
theorem InsertInBST.loop_returns_root (value : Int) (node root : Nat) (h : Heap) :
    ∀ (fuel n : Nat) (res : Heap × Ptr),
      InsertInBST.loop value node root h fuel n = some res → res.2 = some root := by
  intro fuel
  induction fuel with
  | zero => intro n res e; cases e
  | succ k ih =>
    intro n res e
    rw [InsertInBST.loop] at e
    split at e
    · cases e
    · split at e
      · split at e
        · cases e; rfl
        · exact ih _ _ e
      · split at e
        · cases e; rfl
        · exact ih _ _ e

theorem sampleTree_isTree : IsTree sampleHeap (some 0) sampleTree :=
  ⟨rfl, ⟨rfl, ⟨rfl, trivial, trivial⟩, ⟨rfl, trivial, trivial⟩⟩, by decide⟩

theorem sampleTree_ordered : Ordered sampleTree := by
  simp [sampleTree, Ordered, PTree.values]

/-! ## The claims about `InsertInBST` and `MinMaxBST` -/

/-- C1: for every non-empty sequence `S` of integers, inserting the elements of
`S` in order with `InsertInBST` into the empty tree and then calling `MinMaxBST`
returns a pair `(mn, mx)` where `mn` is the minimum of `S` (an element of `S`
below all others) and `mx` its maximum; for `[3, 2, 4, 9, 2, 1, 7]` the pair is
`(1, 9)`.  The step budget of the loops is the length of `S` or more. -/
theorem C1_insertions_then_minmax (S : List Int) (fuel : Nat) (hS : S ≠ [])
    (hf : S.length ≤ fuel) :
    (∃ mn mx, mainBST fuel S = some (mn, mx) ∧
      mn ∈ S ∧ (∀ x ∈ S, mn ≤ x) ∧ mx ∈ S ∧ (∀ x ∈ S, x ≤ mx)) ∧
    mainBST 7 [3, 2, 4, 9, 2, 1, 7] = some (1, 9) :=
  ⟨mainBST_spec fuel S hS hf, by decide⟩

theorem C1_insertions_then_minmax_witness :
    ([5, -2, 8] : List Int) ≠ [] ∧ [5, -2, 8].length ≤ 3 ∧
    ((∃ mn mx, mainBST 3 [5, -2, 8] = some (mn, mx) ∧
      mn ∈ [5, -2, 8] ∧ (∀ x ∈ [5, -2, 8], mn ≤ x) ∧
      mx ∈ [5, -2, 8] ∧ (∀ x ∈ [5, -2, 8], x ≤ mx)) ∧
    mainBST 7 [3, 2, 4, 9, 2, 1, 7] = some (1, 9)) :=
  ⟨by decide, by decide, C1_insertions_then_minmax [5, -2, 8] 3 (by decide) (by decide)⟩

/-- C2: if the tree below `root` satisfies the ordering invariant, then after
`InsertInBST(root, value)` the returned pointer points to a tree that satisfies
it again; hence the tree built from the empty tree by inserting any sequence of
integers satisfies it. -/
theorem C2_insert_preserves_ordering (h : Heap) (root : Ptr) (t : PTree) (value : Int)
    (fuel : Nat) (ht : IsTree h root t) (ho : Ordered t) (hf : t.height ≤ fuel) :
    (∃ h1 root1 t1, InsertInBST fuel h root value = some (h1, root1) ∧
      IsTree h1 root1 t1 ∧ Ordered t1) ∧
    (∀ (vec : List Int) (n : Nat), vec.length ≤ n →
      ∃ h1 root1 t1, buildBST n vec [] none = some (h1, root1) ∧
        IsTree h1 root1 t1 ∧ Ordered t1) := by
  constructor
  · obtain ⟨h1, hrun, ht1, _⟩ := InsertInBST_spec fuel value ht hf
    exact ⟨h1, _, _, hrun, ht1, ho.insert _ _⟩
  · intro vec n hn
    obtain ⟨h1, root1, t1, hrun, ht1, _, _, hord⟩ :=
      buildBST_spec n vec [] none PTree.nil (IsTree.nil []) (by simpa [PTree.size] using hn)
    exact ⟨h1, root1, t1, hrun, ht1, hord trivial⟩

theorem C2_insert_preserves_ordering_witness :
    IsTree sampleHeap (some 0) sampleTree ∧ Ordered sampleTree ∧ sampleTree.height ≤ 2 ∧
    ((∃ h1 root1 t1, InsertInBST 2 sampleHeap (some 0) 3 = some (h1, root1) ∧
        IsTree h1 root1 t1 ∧ Ordered t1) ∧
      (∀ (vec : List Int) (n : Nat), vec.length ≤ n →
        ∃ h1 root1 t1, buildBST n vec [] none = some (h1, root1) ∧
          IsTree h1 root1 t1 ∧ Ordered t1)) :=
  ⟨sampleTree_isTree, sampleTree_ordered, by decide,
    C2_insert_preserves_ordering sampleHeap (some 0) sampleTree 3 2 sampleTree_isTree
      sampleTree_ordered (by decide)⟩

/-- C3: `MinMaxBST` applied to the null root returns the pair `(0, 0)`, in every
heap and with every step budget. -/
theorem C3_minmax_of_empty (fuel : Nat) (h : Heap) : MinMaxBST fuel h none = some (0, 0) :=
  rfl

/-- C4: for every non-empty tree that satisfies the ordering invariant, the left
traversal of `MinMaxBST` ends on a cell without left child whose value is the
minimum of all values stored in the tree, the right traversal ends on a cell
without right child whose value is their maximum, and these two values are what
`MinMaxBST` returns. -/
theorem C4_spine_ends_hold_min_max (h : Heap) (a : Nat) (t : PTree) (fuel : Nat)
    (ht : IsTree h (some a) t) (ho : Ordered t) (hf : t.height ≤ fuel) :
    ∃ lm lcell rm rcell,
      leftmostnode h fuel a = some lm ∧ h[lm]? = some lcell ∧ lcell.left = none ∧
      rightmostnode h fuel a = some rm ∧ h[rm]? = some rcell ∧ rcell.right = none ∧
      lcell.value ∈ t.values ∧ (∀ x ∈ t.values, lcell.value ≤ x) ∧
      rcell.value ∈ t.values ∧ (∀ x ∈ t.values, x ≤ rcell.value) ∧
      MinMaxBST fuel h (some a) = some (lcell.value, rcell.value) := by
  obtain ⟨hp, st, _⟩ := ht
  obtain ⟨lm, lcell, hl, hlc, hln, hlmem, hlmin⟩ := leftmostnode_spec h t fuel a hp st hf
  obtain ⟨rm, rcell, hr, hrc, hrn, hrmem, hrmax⟩ := rightmostnode_spec h t fuel a hp st hf
  refine ⟨lm, lcell, rm, rcell, hl, hlc, hln, hr, hrc, hrn, hlmem, hlmin ho, hrmem,
    hrmax ho, ?_⟩
  simp only [MinMaxBST, hl, hlc, hr, hrc]

theorem C4_spine_ends_hold_min_max_witness :
    IsTree sampleHeap (some 0) sampleTree ∧ Ordered sampleTree ∧ sampleTree.height ≤ 2 ∧
    ∃ lm lcell rm rcell,
      leftmostnode sampleHeap 2 0 = some lm ∧ sampleHeap[lm]? = some lcell ∧
      lcell.left = none ∧
      rightmostnode sampleHeap 2 0 = some rm ∧ sampleHeap[rm]? = some rcell ∧
      rcell.right = none ∧
      lcell.value ∈ sampleTree.values ∧ (∀ x ∈ sampleTree.values, lcell.value ≤ x) ∧
      rcell.value ∈ sampleTree.values ∧ (∀ x ∈ sampleTree.values, x ≤ rcell.value) ∧
      MinMaxBST 2 sampleHeap (some 0) = some (lcell.value, rcell.value) :=
  ⟨sampleTree_isTree, sampleTree_ordered, by decide,
    C4_spine_ends_hold_min_max sampleHeap 0 sampleTree 2 sampleTree_isTree
      sampleTree_ordered (by decide)⟩

/-- C5: for every tree `t` and integer `value`, after `InsertInBST` the returned
pointer points to a tree whose multiset of values is that of `t` plus one
occurrence of `value`; the number of nodes, and the number of allocated cells,
grow by exactly one. -/
theorem C5_insert_adds_one_value (h : Heap) (root : Ptr) (t : PTree) (value : Int)
    (fuel : Nat) (ht : IsTree h root t) (hf : t.height ≤ fuel) :
    ∃ h1 root1 t1, InsertInBST fuel h root value = some (h1, root1) ∧ IsTree h1 root1 t1 ∧
      (t1.values : Multiset Int) = value ::ₘ (t.values : Multiset Int) ∧
      t1.size = t.size + 1 ∧ h1.length = h.length + 1 := by
  obtain ⟨h1, hrun, ht1, hlen⟩ := InsertInBST_spec fuel value ht hf
  refine ⟨h1, _, _, hrun, ht1, ?_, PTree.insert_size _ _ _, hlen⟩
  rw [Multiset.cons_coe]
  exact Multiset.coe_eq_coe.mpr (PTree.insert_values_perm _ _ _)

theorem C5_insert_adds_one_value_witness :
    IsTree sampleHeap (some 0) sampleTree ∧ sampleTree.height ≤ 2 ∧
    ∃ h1 root1 t1, InsertInBST 2 sampleHeap (some 0) 2 = some (h1, root1) ∧
      IsTree h1 root1 t1 ∧
      (t1.values : Multiset Int) = 2 ::ₘ (sampleTree.values : Multiset Int) ∧
      t1.size = sampleTree.size + 1 ∧ h1.length = sampleHeap.length + 1 :=
  ⟨sampleTree_isTree, by decide,
    C5_insert_adds_one_value sampleHeap (some 0) sampleTree 2 2 sampleTree_isTree
      (by decide)⟩

/-- C6: for every non-empty tree `t` with root cell `a` and every integer
`value`, `InsertInBST` returns the same root `a`, and the heap after the call is
the heap before it with the new childless cell holding `value` appended and with
exactly one cell `c` of `t` rewritten: one link of `c` that was null now holds
the address of the new cell, the value and the other link of `c` are kept.  All
other cells are as before. -/
theorem C6_insert_sets_one_null_link (h : Heap) (a : Nat) (t : PTree) (value : Int)
    (fuel : Nat) (ht : IsTree h (some a) t) (hf : t.height ≤ fuel) :
    ∃ c cell, c ∈ t.addrs ∧ h[c]? = some cell ∧
      ((cell.left = none ∧
          InsertInBST fuel h (some a) value =
            some ((h ++ [Node.mk value none none]).set c
              (Node.mk cell.value (some h.length) cell.right), some a)) ∨
        (cell.right = none ∧
          InsertInBST fuel h (some a) value =
            some ((h ++ [Node.mk value none none]).set c
              (Node.mk cell.value cell.left (some h.length)), some a))) := by
  obtain ⟨hp, st, nd⟩ := ht
  have hfresh : h.length ∉ t.addrs := fun hm => Nat.lt_irrefl _ (st.lt_length _ hm)
  obtain ⟨c, cell, h1, hc, hcell, hw, hrun, _⟩ :=
    InsertInBST.loop_spec value h.length a (h ++ [Node.mk value none none])
      (List.getElem?_concat_length h _) t fuel a hp (st.append _) nd hfresh hf
  rw [List.getElem?_append_left (st.lt_length c hc)] at hcell
  refine ⟨c, cell, hc, hcell, ?_⟩
  have hcall : InsertInBST fuel h (some a) value = some (h1, some a) := hrun
  rcases hw with ⟨hnull, e⟩ | ⟨hnull, e⟩
  · exact Or.inl ⟨hnull, by rw [hcall, e]⟩
  · exact Or.inr ⟨hnull, by rw [hcall, e]⟩

theorem C6_insert_sets_one_null_link_witness :
    IsTree sampleHeap (some 0) sampleTree ∧ sampleTree.height ≤ 2 ∧
    ∃ c cell, c ∈ sampleTree.addrs ∧ sampleHeap[c]? = some cell ∧
      ((cell.left = none ∧
          InsertInBST 2 sampleHeap (some 0) 7 =
            some ((sampleHeap ++ [Node.mk 7 none none]).set c
              (Node.mk cell.value (some sampleHeap.length) cell.right), some 0)) ∨
        (cell.right = none ∧
          InsertInBST 2 sampleHeap (some 0) 7 =
            some ((sampleHeap ++ [Node.mk 7 none none]).set c
              (Node.mk cell.value cell.left (some sampleHeap.length)), some 0))) :=
  ⟨sampleTree_isTree, by decide,
    C6_insert_sets_one_null_link sampleHeap 0 sampleTree 7 2 sampleTree_isTree (by decide)⟩

/-- C7: for every tree obtained from the empty tree by one or more `InsertInBST`
calls, the pair `(mn, mx)` that `MinMaxBST` returns satisfies `mn <= mx`. -/
theorem C7_min_le_max (S : List Int) (fuel : Nat) (hS : S ≠ []) (hf : S.length ≤ fuel) :
    ∃ h bst mn mx, buildBST fuel S [] none = some (h, bst) ∧
      MinMaxBST fuel h bst = some (mn, mx) ∧ mn ≤ mx := by
  obtain ⟨mn, mx, hrun, _, hlo, hmx, _⟩ := mainBST_spec fuel S hS hf
  unfold mainBST at hrun
  split at hrun
  · cases hrun
  · next h bst hb => exact ⟨h, bst, mn, mx, hb, hrun, hlo mx hmx⟩

theorem C7_min_le_max_witness :
    ([4, 4, -1] : List Int) ≠ [] ∧ [4, 4, -1].length ≤ 3 ∧
    ∃ h bst mn mx, buildBST 3 [4, 4, -1] [] none = some (h, bst) ∧
      MinMaxBST 3 h bst = some (mn, mx) ∧ mn ≤ mx :=
  ⟨by decide, by decide, C7_min_le_max [4, 4, -1] 3 (by decide) (by decide)⟩

/-- C8: for every integer `value`, `InsertInBST` applied to the null root
allocates one cell holding `value` with two null links and returns its address:
the result is the tree that consists of this single root node. -/
theorem C8_insert_into_empty (fuel : Nat) (h : Heap) (value : Int) :
    InsertInBST fuel h none value =
      some (h ++ [Node.mk value none none], some h.length) ∧
    (h ++ [Node.mk value none none])[h.length]? = some (Node.mk value none none) ∧
    IsTree (h ++ [Node.mk value none none]) (some h.length)
      (PTree.node h.length value PTree.nil PTree.nil) :=
  ⟨rfl, List.getElem?_concat_length h _,
    rfl, ⟨List.getElem?_concat_length h _, trivial, trivial⟩, List.nodup_singleton _⟩

/-- C9: for every tree, empty or not, and every integer, `InsertInBST` returns a
non-null pointer to a non-empty tree; and on no heap, with no budget, does a
call of `InsertInBST` that returns hand back the null pointer. -/
theorem C9_insert_returns_nonnull (h : Heap) (root : Ptr) (t : PTree) (value : Int)
    (fuel : Nat) (ht : IsTree h root t) (hf : t.height ≤ fuel) :
    (∃ h1 a t1, InsertInBST fuel h root value = some (h1, some a) ∧
      IsTree h1 (some a) t1 ∧ t1 ≠ PTree.nil) ∧
    (∀ (n : Nat) (h0 : Heap) (p : Ptr) (v : Int) (res : Heap × Ptr),
      InsertInBST n h0 p v = some res → res.2 ≠ none) := by
  constructor
  · obtain ⟨h1, hrun, ht1, _⟩ := InsertInBST_spec fuel value ht hf
    cases t with
    | nil =>
      exact ⟨h1, h.length, _, hrun, ht1, fun e => PTree.noConfusion e⟩
    | node b v l r =>
      rw [PTree.insert_ptr_node] at hrun ht1
      refine ⟨h1, b, _, hrun, ht1, fun e => ?_⟩
      rw [e] at ht1
      cases ht1.1
  · intro n h0 p v res e
    cases p with
    | none =>
      cases e
      exact fun e2 => Option.noConfusion e2
    | some r =>
      have hr : res.2 = some r := InsertInBST.loop_returns_root _ _ _ _ _ _ _ e
      rw [hr]
      exact fun e2 => Option.noConfusion e2

theorem C9_insert_returns_nonnull_witness :
    IsTree sampleHeap (some 0) sampleTree ∧ sampleTree.height ≤ 2 ∧
    ((∃ h1 a t1, InsertInBST 2 sampleHeap (some 0) 6 = some (h1, some a) ∧
        IsTree h1 (some a) t1 ∧ t1 ≠ PTree.nil) ∧
      (∀ (n : Nat) (h0 : Heap) (p : Ptr) (v : Int) (res : Heap × Ptr),
        InsertInBST n h0 p v = some res → res.2 ≠ none)) :=
  ⟨sampleTree_isTree, by decide,
    C9_insert_returns_nonnull sampleHeap (some 0) sampleTree 6 2 sampleTree_isTree
      (by decide)⟩

/-- C10: for every two integer sequences that are permutations of each other,
inserting the one in order into the empty tree and inserting the other in order
into the empty tree give the same `MinMaxBST` result. -/
theorem C10_minmax_of_permutation (S S' : List Int) (fuel : Nat) (hp : S.Perm S')
    (hf : S.length ≤ fuel) :
    ∃ res, mainBST fuel S = some res ∧ mainBST fuel S' = some res := by
  by_cases hS : S = []
  · subst hS
    have hS' : S' = [] := List.Perm.nil_eq hp |>.symm
    subst hS'
    exact ⟨(0, 0), rfl, rfl⟩
  · have hS' : S' ≠ [] := fun e => hS (by subst e; exact hp.eq_nil)
    obtain ⟨mn, mx, hrun, hmn, hlo, hmx, hhi⟩ := mainBST_spec fuel S hS hf
    obtain ⟨mn', mx', hrun', hmn', hlo', hmx', hhi'⟩ :=
      mainBST_spec fuel S' hS' (hp.length_eq ▸ hf)
    have e1 : mn = mn' :=
      le_antisymm (hlo _ (hp.mem_iff.mpr hmn')) (hlo' _ (hp.mem_iff.mp hmn))
    have e2 : mx = mx' :=
      le_antisymm (hhi' _ (hp.mem_iff.mp hmx)) (hhi _ (hp.mem_iff.mpr hmx'))
    subst e1 e2
    exact ⟨(mn, mx), hrun, hrun'⟩

theorem C10_minmax_of_permutation_witness :
    ([3, 1, 2] : List Int).Perm [2, 3, 1] ∧ [3, 1, 2].length ≤ 3 ∧
    ∃ res, mainBST 3 [3, 1, 2] = some res ∧ mainBST 3 [2, 3, 1] = some res :=
  ⟨by decide, by decide, C10_minmax_of_permutation [3, 1, 2] [2, 3, 1] 3 (by decide) (by decide)⟩

/-! ## The insertion loop of `main` against the recursive insertion -/

/-- The insertion loop of `main` ends in the tree that the recursive insertion
builds, one address after the other. -/
theorem buildBST_refines (fuel : Nat) :
    ∀ (vec : List Int) (h : Heap) (root : Ptr) (t : PTree), IsTree h root t →
      t.size + vec.length ≤ fuel →
      ∃ h1, buildBST fuel vec h root = some (h1, (t.insertAll h.length vec).ptr) ∧
        IsTree h1 (t.insertAll h.length vec).ptr (t.insertAll h.length vec) ∧
        h1.length = h.length + vec.length := by
  intro vec
  induction vec with
  | nil =>
    intro h root t ht _
    exact ⟨h, by rw [PTree.insertAll, ht.1]; rfl, by rw [PTree.insertAll, ht.1]; exact ht, rfl⟩
  | cons x vec ih =>
    intro h root t ht hf
    simp only [List.length_cons] at hf
    obtain ⟨h1, hrun, ht1, hlen⟩ :=
      InsertInBST_spec fuel x ht (le_trans t.height_le_size (by omega))
    have hsize := PTree.insert_size h.length x t
    obtain ⟨h2, hrun2, ht2, hlen2⟩ := ih h1 _ (t.insert h.length x) ht1 (by omega)
    rw [hlen] at hrun2 ht2
    refine ⟨h2, ?_, ht2, ?_⟩
    · simp only [buildBST, hrun]
      exact hrun2
    · rw [hlen2, hlen, List.length_cons]; omega

theorem PTree.insertAll_size (vec : List Int) :
    ∀ (a : Nat) (t : PTree), (t.insertAll a vec).size = t.size + vec.length := by
  induction vec with
  | nil => intro a t; rfl
  | cons x vec ih =>
    intro a t
    rw [PTree.insertAll, ih, PTree.insert_size, List.length_cons]
    omega

theorem PTree.insertAll_values_perm (vec : List Int) :
    ∀ (a : Nat) (t : PTree), (t.insertAll a vec).values.Perm (vec ++ t.values) := by
  induction vec with
  | nil => intro a t; exact List.Perm.refl _
  | cons x vec ih =>
    intro a t
    rw [PTree.insertAll]
    refine (ih (a + 1) (t.insert a x)).trans ?_
    refine (List.Perm.append_left vec (PTree.insert_values_perm a x t)).trans ?_
    exact List.perm_middle

theorem Ordered.insertAll (vec : List Int) :
    ∀ (a : Nat) (t : PTree), Ordered t → Ordered (t.insertAll a vec) := by
  induction vec with
  | nil => intro a t ho; exact ho
  | cons x vec ih =>
    intro a t ho
    rw [PTree.insertAll]
    exact ih _ _ (ho.insert _ _)

theorem PTree.ptr_ne_none_of_size_pos {t : PTree} (hpos : 0 < t.size) :
    ∃ a, t.ptr = some a := by
  cases t with
  | nil => exact absurd hpos (Nat.lt_irrefl 0)
  | node a v l r => exact ⟨a, rfl⟩

/-! ## Chains -/

theorem PTree.LeftOnly.insert_keeps_left (a : Nat) (v : Int) {t : PTree} (hc : t.LeftOnly)
    (hv : ∀ x ∈ t.values, v ≤ x) : (t.insert a v).LeftOnly := by
  induction t with
  | nil => exact ⟨rfl, trivial⟩
  | node b w l r ihl _ =>
    obtain ⟨hr, hl⟩ := hc
    subst hr
    have hw : v ≤ w := hv w (by simp [PTree.values])
    rw [PTree.insert_node_le a b l PTree.nil hw]
    refine ⟨rfl, ihl hl ?_⟩
    intro x hx
    exact hv x (by simp [PTree.values, hx])

theorem PTree.RightOnly.insert_keeps_right (a : Nat) (v : Int) {t : PTree} (hc : t.RightOnly)
    (hv : ∀ x ∈ t.values, x < v) : (t.insert a v).RightOnly := by
  induction t with
  | nil => exact ⟨rfl, trivial⟩
  | node b w l r _ ihr =>
    obtain ⟨hl, hr⟩ := hc
    subst hl
    have hw : ¬ v ≤ w := not_le.mpr (hv w (by simp [PTree.values]))
    rw [PTree.insert_node_gt a b PTree.nil r hw]
    refine ⟨rfl, ihr hr ?_⟩
    intro x hx
    exact hv x (by simp [PTree.values, hx])

theorem PTree.RightOnly.height_eq_size {t : PTree} (hc : t.RightOnly) : t.height = t.size := by
  induction t with
  | nil => rfl
  | node b w l r _ ihr =>
    obtain ⟨hl, hr⟩ := hc
    subst hl
    simp [PTree.height, PTree.size, ihr hr]

theorem PTree.LeftOnly.insertAll_replicate (v : Int) (N : Nat) :
    ∀ (a : Nat) (t : PTree), t.LeftOnly → (∀ x ∈ t.values, x = v) →
      (t.insertAll a (List.replicate N v)).LeftOnly := by
  induction N with
  | zero => intro a t hc _; exact hc
  | succ N ih =>
    intro a t hc hv
    rw [List.replicate_succ, PTree.insertAll]
    refine ih _ _ (hc.insert_keeps_left a v fun x hx => le_of_eq (hv x hx).symm) ?_
    intro x hx
    rcases List.mem_cons.mp ((PTree.insert_values_perm a v t).mem_iff.mp hx) with rfl | hx
    · rfl
    · exact hv x hx

theorem PTree.RightOnly.insertAll_ascending (vec : List Int) :
    ∀ (a : Nat) (t : PTree), t.RightOnly → (∀ x ∈ t.values, ∀ y ∈ vec, x < y) →
      vec.Pairwise (· < ·) → (t.insertAll a vec).RightOnly := by
  induction vec with
  | nil => intro a t hc _ _; exact hc
  | cons y vec ih =>
    intro a t hc hv hp
    rw [PTree.insertAll]
    obtain ⟨hy, hp⟩ := List.pairwise_cons.mp hp
    refine ih _ _ (hc.insert_keeps_right a y fun x hx => hv x hx y (List.mem_cons_self _ _)) ?_ hp
    intro x hx z hz
    rcases List.mem_cons.mp ((PTree.insert_values_perm a y t).mem_iff.mp hx) with rfl | hx
    · exact hy z hz
    · exact hv x hx z (List.mem_cons_of_mem _ hz)

theorem head_le_of_ascending (S : List Int) (hS : S ≠ []) (hp : S.Pairwise (· < ·)) :
    ∀ x ∈ S, S.head hS ≤ x := by
  cases S with
  | nil => exact absurd rfl hS
  | cons a rest =>
    intro x hx
    rcases List.mem_cons.mp hx with rfl | hx
    · exact le_refl _
    · exact le_of_lt ((List.pairwise_cons.mp hp).1 x hx)

theorem le_getLast_of_ascending (S : List Int) (hS : S ≠ []) (hp : S.Pairwise (· < ·)) :
    ∀ x ∈ S, x ≤ S.getLast hS := by
  induction S with
  | nil => exact absurd rfl hS
  | cons a rest ih =>
    intro x hx
    obtain ⟨ha, hrest⟩ := List.pairwise_cons.mp hp
    cases rest with
    | nil =>
      rcases List.mem_cons.mp hx with rfl | hx
      · exact le_refl _
      · cases hx
    | cons b rest2 =>
      rw [List.getLast_cons (List.cons_ne_nil b rest2)]
      rcases List.mem_cons.mp hx with rfl | hx
      · exact le_of_lt (ha _ (List.getLast_mem _))
      · exact ih (List.cons_ne_nil b rest2) hrest x hx

/-- The left traversal never ends on the one-cell heap whose cell links to
itself: the step budget is really what a cyclic structure exhausts. -/
theorem leftmostnode_loopHeap (fuel : Nat) : leftmostnode loopHeap fuel 0 = none := by
  induction fuel with
  | zero => rfl
  | succ k ih => simpa [leftmostnode, loopHeap] using ih

/-! ## The claims about chains, repeated calls and the recursive insertion -/

/-- C11: for every integer `v` and every `N >= 1`, inserting `v` `N` times into
the empty tree gives a tree of exactly `N` nodes, each holding `v`, that is a
left-only chain, and `MinMaxBST` on it returns `(v, v)`; the single insertion
`[5]` gives `(5, 5)`. -/
theorem C11_duplicates_form_left_chain (v : Int) (N fuel : Nat) (hN : 1 ≤ N)
    (hf : N ≤ fuel) :
    (∃ h bst t, buildBST fuel (List.replicate N v) [] none = some (h, bst) ∧
      IsTree h bst t ∧ t.size = N ∧ t.values = List.replicate N v ∧ t.LeftOnly ∧
      MinMaxBST fuel h bst = some (v, v)) ∧
    mainBST 1 [5] = some (5, 5) := by
  refine ⟨?_, by decide⟩
  obtain ⟨h1, hrun, ht1, _⟩ :=
    buildBST_refines fuel (List.replicate N v) [] none PTree.nil (IsTree.nil [])
      (by simpa [PTree.size] using hf)
  have hsize : (PTree.nil.insertAll 0 (List.replicate N v)).size = N := by
    simp [PTree.insertAll_size, PTree.size]
  have hall : ∀ x ∈ (PTree.nil.insertAll 0 (List.replicate N v)).values, x = v := by
    intro x hx
    have hx2 := (PTree.insertAll_values_perm (List.replicate N v) 0 PTree.nil).mem_iff.mp hx
    simp only [PTree.values, List.append_nil] at hx2
    exact List.eq_of_mem_replicate hx2
  have hvals : (PTree.nil.insertAll 0 (List.replicate N v)).values = List.replicate N v :=
    List.eq_replicate_iff.mpr ⟨by rw [PTree.values_length, hsize], hall⟩
  have hchain : (PTree.nil.insertAll 0 (List.replicate N v)).LeftOnly :=
    PTree.LeftOnly.insertAll_replicate v N 0 PTree.nil trivial (fun x hx => by cases hx)
  obtain ⟨a, ha⟩ := PTree.ptr_ne_none_of_size_pos (t := PTree.nil.insertAll 0 (List.replicate N v))
    (by omega)
  obtain ⟨mn, mx, hmm, hmn, hmx, _⟩ :=
    MinMaxBST_spec h1 a _ fuel ha ht1.2.1 (le_trans (PTree.height_le_size _) (by omega))
  rw [hall mn hmn, hall mx hmx, ← ha] at hmm
  exact ⟨h1, _, _, hrun, ht1, hsize, hvals, hchain, hmm⟩

theorem C11_duplicates_form_left_chain_witness :
    1 ≤ 3 ∧ 3 ≤ 3 ∧
    ((∃ h bst t, buildBST 3 (List.replicate 3 (-4)) [] none = some (h, bst) ∧
      IsTree h bst t ∧ t.size = 3 ∧ t.values = List.replicate 3 (-4) ∧ t.LeftOnly ∧
      MinMaxBST 3 h bst = some (-4, -4)) ∧
    mainBST 1 [5] = some (5, 5)) :=
  ⟨by decide, by decide, C11_duplicates_form_left_chain (-4) 3 3 (by decide) (by decide)⟩

/-- C12: for every strictly ascending sequence `S` of `N >= 1` integers inserted
in order into the empty tree, the result is a right-only chain (no node has a
left child) of depth `N`, and `MinMaxBST` returns (first element, last element);
for `[1, 2, 3, 4, 5]` the chain is five cells deep, each cell linking to the
next one on the right, and the result is `(1, 5)`. -/
theorem C12_ascending_forms_right_chain (S : List Int) (fuel : Nat) (hS : S ≠ [])
    (hasc : S.Pairwise (· < ·)) (hf : S.length ≤ fuel) :
    (∃ h bst t, buildBST fuel S [] none = some (h, bst) ∧ IsTree h bst t ∧
      t.RightOnly ∧ t.height = S.length ∧ t.size = S.length ∧
      MinMaxBST fuel h bst = some (S.head hS, S.getLast hS)) ∧
    buildBST 5 [1, 2, 3, 4, 5] [] none =
      some ([Node.mk 1 none (some 1), Node.mk 2 none (some 2), Node.mk 3 none (some 3),
        Node.mk 4 none (some 4), Node.mk 5 none none], some 0) ∧
    mainBST 5 [1, 2, 3, 4, 5] = some (1, 5) := by
  refine ⟨?_, by decide, by decide⟩
  obtain ⟨h1, hrun, ht1, _⟩ :=
    buildBST_refines fuel S [] none PTree.nil (IsTree.nil []) (by simpa [PTree.size] using hf)
  have hsize : (PTree.nil.insertAll 0 S).size = S.length := by
    simp [PTree.insertAll_size, PTree.size]
  have hchain : (PTree.nil.insertAll 0 S).RightOnly :=
    PTree.RightOnly.insertAll_ascending S 0 PTree.nil trivial (fun x hx => by cases hx) hasc
  have hord : Ordered (PTree.nil.insertAll 0 S) := Ordered.insertAll S 0 PTree.nil trivial
  have hvals : ∀ x, x ∈ (PTree.nil.insertAll 0 S).values ↔ x ∈ S := by
    intro x
    rw [(PTree.insertAll_values_perm S 0 PTree.nil).mem_iff]
    simp [PTree.values]
  have hpos : 0 < S.length := List.length_pos.mpr hS
  obtain ⟨a, ha⟩ := PTree.ptr_ne_none_of_size_pos (t := PTree.nil.insertAll 0 S) (by omega)
  obtain ⟨mn, mx, hmm, hmn, hmx, hb⟩ :=
    MinMaxBST_spec h1 a _ fuel ha ht1.2.1 (le_trans (PTree.height_le_size _) (by omega))
  obtain ⟨hlo, hhi⟩ := hb hord
  have e1 : mn = S.head hS :=
    le_antisymm (hlo _ ((hvals _).mpr (List.head_mem hS)))
      (head_le_of_ascending S hS hasc mn ((hvals mn).mp hmn))
  have e2 : mx = S.getLast hS :=
    le_antisymm (le_getLast_of_ascending S hS hasc mx ((hvals mx).mp hmx))
      (hhi _ ((hvals _).mpr (List.getLast_mem hS)))
  rw [e1, e2, ← ha] at hmm
  exact ⟨h1, _, _, hrun, ht1, hchain, (hchain.height_eq_size).trans hsize, hsize, hmm⟩

theorem C12_ascending_forms_right_chain_witness :
    ∃ (hS : ([-3, 0, 8] : List Int) ≠ []),
      ([-3, 0, 8] : List Int).Pairwise (· < ·) ∧ [-3, 0, 8].length ≤ 3 ∧
      ((∃ h bst t, buildBST 3 [-3, 0, 8] [] none = some (h, bst) ∧ IsTree h bst t ∧
        t.RightOnly ∧ t.height = [-3, 0, 8].length ∧ t.size = [-3, 0, 8].length ∧
        MinMaxBST 3 h bst = some (([-3, 0, 8] : List Int).head hS,
          ([-3, 0, 8] : List Int).getLast hS)) ∧
      buildBST 5 [1, 2, 3, 4, 5] [] none =
        some ([Node.mk 1 none (some 1), Node.mk 2 none (some 2), Node.mk 3 none (some 3),
          Node.mk 4 none (some 4), Node.mk 5 none none], some 0) ∧
      mainBST 5 [1, 2, 3, 4, 5] = some (1, 5)) :=
  ⟨by decide, by decide, by decide,
    C12_ascending_forms_right_chain [-3, 0, 8] 3 (by decide) (by decide) (by decide)⟩

/-- On a stored tree, empty or not, `MinMaxBST` returns within a budget of the
height. -/
theorem MinMaxBST_returns {h : Heap} {root : Ptr} {t : PTree} (fuel : Nat)
    (ht : IsTree h root t) (hf : t.height ≤ fuel) : ∃ res, MinMaxBST fuel h root = some res := by
  obtain ⟨hp, st, _⟩ := ht
  cases t with
  | nil => subst hp; exact ⟨(0, 0), rfl⟩
  | node a v l r =>
    subst hp
    obtain ⟨mn, mx, hmm, _⟩ := MinMaxBST_spec h a (PTree.node a v l r) fuel rfl st hf
    exact ⟨(mn, mx), hmm⟩

/-- C13: `MinMaxBST` leaves the heap as it was given, so every cell keeps its
value and both links and the pointer still points to the same tree; two calls in
succession on the same tree return the same pair both times. -/
theorem C13_minmax_reads_only (h : Heap) (root : Ptr) (t : PTree) (fuel : Nat)
    (ht : IsTree h root t) (hf : t.height ≤ fuel) :
    (∃ res, MinMaxBST.call fuel h root = some (h, res) ∧
      MinMaxBST.twice fuel h root = some (h, res, res)) ∧
    (∀ (n : Nat) (h0 h1 : Heap) (p : Ptr) (res : Int × Int),
      MinMaxBST.call n h0 p = some (h1, res) →
        h1 = h0 ∧ MinMaxBST.call n h1 p = some (h1, res)) := by
  constructor
  · obtain ⟨res, hres⟩ := MinMaxBST_returns fuel ht hf
    have hcall : MinMaxBST.call fuel h root = some (h, res) := by
      simp only [MinMaxBST.call, hres]
    exact ⟨res, hcall, by simp only [MinMaxBST.twice, hcall]⟩
  · intro n h0 h1 p res e
    unfold MinMaxBST.call at e
    split at e
    · cases e
    · next r hr =>
      cases e
      exact ⟨rfl, by simp only [MinMaxBST.call, hr]⟩

theorem C13_minmax_reads_only_witness :
    IsTree sampleHeap (some 0) sampleTree ∧ sampleTree.height ≤ 2 ∧
    ((∃ res, MinMaxBST.call 2 sampleHeap (some 0) = some (sampleHeap, res) ∧
        MinMaxBST.twice 2 sampleHeap (some 0) = some (sampleHeap, res, res)) ∧
      (∀ (n : Nat) (h0 h1 : Heap) (p : Ptr) (res : Int × Int),
        MinMaxBST.call n h0 p = some (h1, res) →
          h1 = h0 ∧ MinMaxBST.call n h1 p = some (h1, res))) :=
  ⟨sampleTree_isTree, by decide,
    C13_minmax_reads_only sampleHeap (some 0) sampleTree 2 sampleTree_isTree (by decide)⟩

/-- C14: `MinMaxBST` returns `(0, 0)` for the empty tree and also for the tree
obtained by inserting the single value 0 into the empty tree, so its result does
not tell the two apart. -/
theorem C14_sentinel_is_ambiguous (fuel : Nat) (h : Heap) (hf : 1 ≤ fuel) :
    ∃ h1 bst, InsertInBST fuel h none 0 = some (h1, bst) ∧ bst ≠ none ∧
      MinMaxBST fuel h none = some (0, 0) ∧ MinMaxBST fuel h1 bst = some (0, 0) ∧
      mainBST fuel [] = mainBST fuel [0] := by
  obtain ⟨k, rfl⟩ : ∃ k, fuel = k + 1 := ⟨fuel - 1, by omega⟩
  have hone : ∀ g : Heap, MinMaxBST (k + 1) (g ++ [Node.mk 0 none none]) (some g.length)
      = some (0, 0) := by
    intro g
    simp [MinMaxBST, leftmostnode, rightmostnode]
  refine ⟨h ++ [Node.mk 0 none none], some h.length, rfl, fun e => Option.noConfusion e, rfl,
    hone h, ?_⟩
  exact (hone []).symm

theorem C14_sentinel_is_ambiguous_witness :
    1 ≤ 1 ∧
    ∃ h1 bst, InsertInBST 1 [] none 0 = some (h1, bst) ∧ bst ≠ none ∧
      MinMaxBST 1 [] none = some (0, 0) ∧ MinMaxBST 1 h1 bst = some (0, 0) ∧
      mainBST 1 [] = mainBST 1 [0] :=
  ⟨by decide, C14_sentinel_is_ambiguous 1 [] (by decide)⟩

/-- C19: for every tree `t` and integer `value`, the tree that the iterative
`InsertInBST` leaves below the returned pointer is the tree that the recursive
insertion `PTree.insert` produces from `t` (the new leaf in the left subtree when
`value <= n.value`, in the right subtree when `value > n.value`), the new node
being the freshly allocated cell; no other tree is stored there. -/
theorem C19_iterative_equals_recursive (h : Heap) (root : Ptr) (t : PTree) (value : Int)
    (fuel : Nat) (ht : IsTree h root t) (hf : t.height ≤ fuel) :
    ∃ h1 root1, InsertInBST fuel h root value = some (h1, root1) ∧
      IsTree h1 root1 (t.insert h.length value) ∧
      ∀ t1, IsTree h1 root1 t1 → t1 = t.insert h.length value := by
  obtain ⟨h1, hrun, ht1, _⟩ := InsertInBST_spec fuel value ht hf
  refine ⟨h1, _, hrun, ht1, ?_⟩
  intro t1 ht2
  exact Stored.unique ht2.2.1 ht1.2.1 (ht2.1.trans ht1.1.symm)

theorem C19_iterative_equals_recursive_witness :
    IsTree sampleHeap (some 0) sampleTree ∧ sampleTree.height ≤ 2 ∧
    ∃ h1 root1, InsertInBST 2 sampleHeap (some 0) 7 = some (h1, root1) ∧
      IsTree h1 root1 (sampleTree.insert sampleHeap.length 7) ∧
      ∀ t1, IsTree h1 root1 t1 → t1 = sampleTree.insert sampleHeap.length 7 :=
  ⟨sampleTree_isTree, by decide,
    C19_iterative_equals_recursive sampleHeap (some 0) sampleTree 7 2 sampleTree_isTree
      (by decide)⟩

/-- C20: for every finite tree and every integer the descent loop of
`InsertInBST` terminates, and for every finite tree both traversal loops of
`MinMaxBST` terminate: a step budget of the height of the tree is enough for
the two functions to return, and on a non-empty tree for each of the three loops
to come to its end. -/
theorem C20_loops_terminate (h : Heap) (root : Ptr) (t : PTree) (value : Int) (fuel : Nat)
    (ht : IsTree h root t) (hf : t.height ≤ fuel) :
    (∃ res, InsertInBST fuel h root value = some res) ∧
    (∃ res, MinMaxBST fuel h root = some res) ∧
    (∀ a, root = some a →
      (∃ res, InsertInBST.loop value h.length a (h ++ [Node.mk value none none]) fuel a
        = some res) ∧
      (∃ lm, leftmostnode h fuel a = some lm) ∧
      (∃ rm, rightmostnode h fuel a = some rm)) := by
  obtain ⟨h1, hrun, _, _⟩ := InsertInBST_spec fuel value ht hf
  obtain ⟨res, hres⟩ := MinMaxBST_returns fuel ht hf
  refine ⟨⟨_, hrun⟩, ⟨res, hres⟩, ?_⟩
  intro a ha
  subst ha
  obtain ⟨hp, st, _⟩ := ht
  obtain ⟨lm, _, hl, _⟩ := leftmostnode_spec h t fuel a hp st hf
  obtain ⟨rm, _, hr, _⟩ := rightmostnode_spec h t fuel a hp st hf
  exact ⟨⟨_, hrun⟩, ⟨lm, hl⟩, ⟨rm, hr⟩⟩

theorem C20_loops_terminate_witness :
    IsTree sampleHeap (some 0) sampleTree ∧ sampleTree.height ≤ 2 ∧
    ((∃ res, InsertInBST 2 sampleHeap (some 0) 4 = some res) ∧
      (∃ res, MinMaxBST 2 sampleHeap (some 0) = some res) ∧
      (∀ a, some 0 = some a →
        (∃ res, InsertInBST.loop 4 sampleHeap.length a (sampleHeap ++ [Node.mk 4 none none]) 2 a
          = some res) ∧
        (∃ lm, leftmostnode sampleHeap 2 a = some lm) ∧
        (∃ rm, rightmostnode sampleHeap 2 a = some rm))) :=
  ⟨sampleTree_isTree, by decide,
    C20_loops_terminate sampleHeap (some 0) sampleTree 4 2 sampleTree_isTree (by decide)⟩

/-! ## The array-based `MinMax` against `MinMaxBST` -/

theorem std_min_spec (a b : Int) :
    (std_min a b = a ∨ std_min a b = b) ∧ std_min a b ≤ a ∧ std_min a b ≤ b := by
  unfold std_min
  split
  · exact ⟨Or.inr rfl, by omega, le_refl _⟩
  · exact ⟨Or.inl rfl, le_refl _, by omega⟩

theorem std_max_spec (a b : Int) :
    (std_max a b = a ∨ std_max a b = b) ∧ a ≤ std_max a b ∧ b ≤ std_max a b := by
  unfold std_max
  split
  · exact ⟨Or.inr rfl, by omega, le_refl _⟩
  · exact ⟨Or.inl rfl, le_refl _, by omega⟩

/-- The loop of `MinMax` from the counter `i` on, when `min` and `max` are
elements of the vector that bound its first `i` elements: the loop returns two
elements of the vector that bound all of it. -/
theorem MinMax_loop_spec (vector : List Int) :
    ∀ (k i : Nat) (mn mx : Int), i + k = vector.length → mn ∈ vector → mx ∈ vector →
      (∀ j x, j < i → vector[j]? = some x → mn ≤ x ∧ x ≤ mx) →
      ∃ mn1 mx1, MinMax.loop vector k i mn mx = some (mn1, mx1) ∧ mn1 ∈ vector ∧
        mx1 ∈ vector ∧ ∀ x ∈ vector, mn1 ≤ x ∧ x ≤ mx1 := by
  intro k
  induction k with
  | zero =>
    intro i mn mx hik hmn hmx hb
    refine ⟨mn, mx, rfl, hmn, hmx, ?_⟩
    intro x hx
    obtain ⟨j, hj, e⟩ := List.getElem_of_mem hx
    exact hb j x (by omega) (by rw [List.getElem?_eq_getElem hj, e])
  | succ k ih =>
    intro i mn mx hik hmn hmx hb
    have hi : i < vector.length := by omega
    have hvi : vector[i]? = some (vector.get ⟨i, hi⟩) := by
      rw [List.getElem?_eq_getElem hi]; rfl
    have hmem : vector.get ⟨i, hi⟩ ∈ vector := List.get_mem _ _ _
    obtain ⟨hmin1, hmin2, hmin3⟩ := std_min_spec mn (vector.get ⟨i, hi⟩)
    obtain ⟨hmax1, hmax2, hmax3⟩ := std_max_spec mx (vector.get ⟨i, hi⟩)
    obtain ⟨mn1, mx1, hrun, h1, h2, h3⟩ :=
      ih (i + 1) (std_min mn (vector.get ⟨i, hi⟩)) (std_max mx (vector.get ⟨i, hi⟩))
        (by omega)
        (by rcases hmin1 with e | e <;> rw [e] <;> assumption)
        (by rcases hmax1 with e | e <;> rw [e] <;> assumption)
        (by
          intro j x hj hx
          by_cases e : j = i
          · subst e
            rw [hvi] at hx
            cases hx
            exact ⟨hmin3, hmax3⟩
          · obtain ⟨hlo, hhi⟩ := hb j x (by omega) hx
            exact ⟨le_trans hmin2 hlo, le_trans hhi hmax2⟩)
    refine ⟨mn1, mx1, ?_, h1, h2, h3⟩
    rw [MinMax.loop, hvi]
    exact hrun

/-- The function `MinMax` on a non-empty vector returns a least and a greatest
element of the vector. -/
theorem MinMax_spec (vector : List Int) (hne : vector ≠ []) :
    ∃ mn mx, MinMax vector = some (mn, mx) ∧ mn ∈ vector ∧ (∀ x ∈ vector, mn ≤ x) ∧
      mx ∈ vector ∧ (∀ x ∈ vector, x ≤ mx) := by
  cases vector with
  | nil => exact absurd rfl hne
  | cons v0 rest =>
    obtain ⟨mn, mx, hrun, h1, h2, h3⟩ :=
      MinMax_loop_spec (v0 :: rest) rest.length 1 v0 v0 (by simp [Nat.add_comm])
        (List.mem_cons_self _ _) (List.mem_cons_self _ _)
        (by
          intro j x hj hx
          have e : j = 0 := by omega
          subst e
          simp only [List.getElem?_cons_zero, Option.some.injEq] at hx
          subst hx
          exact ⟨le_refl _, le_refl _⟩)
    refine ⟨mn, mx, ?_, h1, fun x hx => (h3 x hx).1, h2, fun x hx => (h3 x hx).2⟩
    simpa [MinMax] using hrun

/-- C21: for every vector of ints, the empty one included, the array-based
`MinMax(vector)` returns the same pair as `MinMaxBST` applied to the tree built
by inserting the elements of the vector in order into the empty tree. -/
theorem C21_minmax_agrees_with_bst (vector : List Int) (fuel : Nat)
    (hf : vector.length ≤ fuel) :
    ∃ res, MinMax vector = some res ∧ mainBST fuel vector = some res ∧
      ∃ h bst, buildBST fuel vector [] none = some (h, bst) ∧
        MinMaxBST fuel h bst = some res := by
  by_cases hne : vector = []
  · subst hne
    exact ⟨(0, 0), rfl, rfl, [], none, rfl, rfl⟩
  · obtain ⟨mn, mx, hrun, hmn, hlo, hmx, hhi⟩ := MinMax_spec vector hne
    obtain ⟨mn2, mx2, hrun2, hmn2, hlo2, hmx2, hhi2⟩ := mainBST_spec fuel vector hne hf
    have e1 : mn = mn2 := le_antisymm (hlo _ hmn2) (hlo2 _ hmn)
    have e2 : mx = mx2 := le_antisymm (hhi2 _ hmx) (hhi _ hmx2)
    subst e1 e2
    refine ⟨(mn, mx), hrun, hrun2, ?_⟩
    unfold mainBST at hrun2
    split at hrun2
    · cases hrun2
    · next h bst hb => exact ⟨h, bst, hb, hrun2⟩

theorem C21_minmax_agrees_with_bst_witness :
    ([3, 2, 4, 9, 2, 1, 7] : List Int).length ≤ 7 ∧
    ∃ res, MinMax [3, 2, 4, 9, 2, 1, 7] = some res ∧
      mainBST 7 [3, 2, 4, 9, 2, 1, 7] = some res ∧
      ∃ h bst, buildBST 7 [3, 2, 4, 9, 2, 1, 7] [] none = some (h, bst) ∧
        MinMaxBST 7 h bst = some res :=
  ⟨by decide, C21_minmax_agrees_with_bst [3, 2, 4, 9, 2, 1, 7] 7 (by decide)⟩

end Tuple

namespace SwapCpp

/-! ## One swap -/

/-- What the three statements of a swap leave at every position. -/
theorem exchange_get {T : Type} (l : List T) (i j : Nat) (hi : i < l.length)
    (hj : j < l.length) (p : Nat) :
    ((l.set i (l.get ⟨j, hj⟩)).set j (l.get ⟨i, hi⟩))[p]? =
      if p = j then l[i]? else if p = i then l[j]? else l[p]? := by
  simp only [List.getElem?_set, List.length_set, List.get_eq_getElem]
  by_cases h1 : j = p
  · subst h1
    simp [hj, List.getElem?_eq_getElem hi]
  · have h1' : ¬ p = j := fun e => h1 e.symm
    by_cases h2 : i = p
    · subst h2
      simp [h1, h1', hi, List.getElem?_eq_getElem hj]
    · have h2' : ¬ p = i := fun e => h2 e.symm
      simp [h1, h1', h2, h2']

theorem Swap_T_array_eq {T : Type} (array : List T) (i j : Nat) (hi : i < array.length)
    (hj : j < array.length) :
    Swap_T_array array i j =
      some ((array.set i (array.get ⟨j, hj⟩)).set j (array.get ⟨i, hi⟩)) := by
  simp [Swap_T_array, List.getElem?_eq_getElem hi, List.getElem?_eq_getElem hj]

theorem Swap_ref_eq (intvec : List Int) (x y : Nat) (hx : x < intvec.length)
    (hy : y < intvec.length) :
    Swap_ref intvec x y =
      some ((intvec.set x (intvec.get ⟨y, hy⟩)).set y (intvec.get ⟨x, hx⟩)) := by
  simp [Swap_ref, List.getElem?_eq_getElem hx, List.getElem?_eq_getElem hy]

theorem Swap_array_eq (array : List Int) (i j : Nat) (hi : i < array.length)
    (hj : j < array.length) :
    Swap_array array (i : Int) (j : Int) =
      some ((array.set i (array.get ⟨j, hj⟩)).set j (array.get ⟨i, hi⟩)) := by
  simp [Swap_array, List.getElem?_eq_getElem hi, List.getElem?_eq_getElem hj]

/-- The effect of a swap at two valid positions, for any of the three functions:
the two elements change places and every other position keeps its element. -/
theorem exchange_spec {T : Type} (l : List T) (i j : Nat) (hi : i < l.length)
    (hj : j < l.length) :
    ((l.set i (l.get ⟨j, hj⟩)).set j (l.get ⟨i, hi⟩)).length = l.length ∧
    ((l.set i (l.get ⟨j, hj⟩)).set j (l.get ⟨i, hi⟩))[i]? = l[j]? ∧
    ((l.set i (l.get ⟨j, hj⟩)).set j (l.get ⟨i, hi⟩))[j]? = l[i]? ∧
    (∀ k, k ≠ i → k ≠ j → ((l.set i (l.get ⟨j, hj⟩)).set j (l.get ⟨i, hi⟩))[k]? = l[k]?) ∧
    (i = j → (l.set i (l.get ⟨j, hj⟩)).set j (l.get ⟨i, hi⟩) = l) := by
  refine ⟨by simp, ?_, ?_, ?_, ?_⟩
  · rw [exchange_get]
    by_cases h : i = j
    · subst h; simp
    · simp [h]
  · rw [exchange_get]
    simp
  · intro k hki hkj
    rw [exchange_get]
    simp [hki, hkj]
  · intro h
    subst h
    apply List.ext_getElem?
    intro p
    rw [exchange_get]
    by_cases hp : p = i
    · subst hp; simp
    · simp [hp]

/-! ## The reversal loops of `main` -/

theorem toInt_of_lt (n : Nat) (hn : n < 2147483648) : toInt n = (n : Int) := by
  unfold toInt
  omega

theorem half_toNat (n : Nat) : (Int.tdiv (n : Int) 2).toNat = n / 2 := by
  rw [Int.tdiv_eq_ediv (Int.ofNat_nonneg n) (by decide)]
  have h : ((n : Int) / 2) = ((n / 2 : Nat) : Int) := by norm_cast
  rw [h, Int.toNat_ofNat]

theorem Mirrored.start (orig : List Int) : Mirrored orig 0 orig := by
  refine ⟨rfl, ?_⟩
  intro p hp
  have h : ¬ (p < 0 ∨ orig.length - 0 ≤ p) := by omega
  rw [if_neg h]

/-- One more swap, of the positions `i` and `n - 1 - i`, extends the mirrored
part by one position at either end. -/
theorem Mirrored.step {orig v : List Int} {i : Nat} (hm : Mirrored orig i v)
    (hi : i < orig.length / 2) (hiv : i < v.length) (hjv : orig.length - 1 - i < v.length) :
    Mirrored orig (i + 1)
      ((v.set i (v.get ⟨orig.length - 1 - i, hjv⟩)).set (orig.length - 1 - i)
        (v.get ⟨i, hiv⟩)) := by
  obtain ⟨hlen, hget⟩ := hm
  refine ⟨by simp [hlen], ?_⟩
  intro p hp
  rw [exchange_get]
  have hvi : v[i]? = orig[i]? := by
    rw [hget i (by omega), if_neg (by omega)]
  have hvj : v[orig.length - 1 - i]? = orig[orig.length - 1 - i]? := by
    rw [hget _ (by omega), if_neg (by omega)]
  by_cases h1 : p = orig.length - 1 - i
  · rw [if_pos h1, if_pos (by omega), hvi]
    congr 1
    omega
  · rw [if_neg h1]
    by_cases h2 : p = i
    · rw [if_pos h2, if_pos (by omega), hvj, h2]
    · rw [if_neg h2, hget p hp]
      by_cases h3 : p < i ∨ orig.length - i ≤ p
      · rw [if_pos h3, if_pos (by omega)]
      · rw [if_neg h3, if_neg (by omega)]

/-- When the two mirrored parts meet, the vector is the reverse of the original. -/
theorem Mirrored.finish {orig v : List Int} (hm : Mirrored orig (orig.length / 2) v) :
    v = orig.reverse := by
  obtain ⟨hlen, hget⟩ := hm
  apply List.ext_getElem?
  intro p
  by_cases hp : p < orig.length
  · rw [hget p hp, List.getElem?_reverse hp]
    by_cases h : p < orig.length / 2 ∨ orig.length - orig.length / 2 ≤ p
    · rw [if_pos h]
    · rw [if_neg h]
      congr 1
      omega
  · rw [List.getElem?_eq_none (by omega), List.getElem?_eq_none (by simp; omega)]

theorem main_reverse_ref_loop_spec (orig : List Int) :
    ∀ (k i : Nat) (v : List Int), i + k = orig.length / 2 → Mirrored orig i v →
      ∃ out, main_reverse_ref.loop (orig.length : Int) k i v = some out ∧
        Mirrored orig (orig.length / 2) out := by
  intro k
  induction k with
  | zero =>
    intro i v hik hm
    have e : i = orig.length / 2 := by omega
    subst e
    exact ⟨v, rfl, hm⟩
  | succ k ih =>
    intro i v hik hm
    have hi : i < orig.length / 2 := by omega
    have hiv : i < v.length := by rw [hm.1]; omega
    have hjv : orig.length - 1 - i < v.length := by rw [hm.1]; omega
    have hnn : ¬ ((orig.length : Int) - 1 - (i : Int) < 0) := by omega
    have hj : ((orig.length : Int) - 1 - (i : Int)).toNat = orig.length - 1 - i := by omega
    obtain ⟨out, hrun, hout⟩ := ih (i + 1) _ (by omega) (hm.step hi hiv hjv)
    refine ⟨out, ?_, hout⟩
    rw [main_reverse_ref.loop, if_neg hnn, hj, Swap_ref_eq v i _ hiv hjv]
    exact hrun

theorem main_reverse_array_loop_spec (orig : List Int) :
    ∀ (k i : Nat) (v : List Int), i + k = orig.length / 2 → Mirrored orig i v →
      ∃ out, main_reverse_array.loop (orig.length : Int) k i v = some out ∧
        Mirrored orig (orig.length / 2) out := by
  intro k
  induction k with
  | zero =>
    intro i v hik hm
    have e : i = orig.length / 2 := by omega
    subst e
    exact ⟨v, rfl, hm⟩
  | succ k ih =>
    intro i v hik hm
    have hi : i < orig.length / 2 := by omega
    have hiv : i < v.length := by rw [hm.1]; omega
    have hjv : orig.length - 1 - i < v.length := by rw [hm.1]; omega
    have hj : (orig.length : Int) - 1 - (i : Int) = ((orig.length - 1 - i : Nat) : Int) := by
      omega
    obtain ⟨out, hrun, hout⟩ := ih (i + 1) _ (by omega) (hm.step hi hiv hjv)
    refine ⟨out, ?_, hout⟩
    rw [main_reverse_array.loop, hj, Swap_array_eq v i _ hiv hjv]
    exact hrun

/-! ## The claims about `swap.cpp` -/

/-- C15: for every `int` array and valid indices `i` and `j`,
`Swap(array, i, j)` leaves the old `array[j]` at index `i`, the old `array[i]`
at index `j` and every other element unchanged, so that the array is unchanged
when `i = j`; the same holds for the template `Swap(T array[], size_t, size_t)`. -/
theorem C15_swap_exchanges_two_elements (array : List Int) (i j : Int) (hi0 : 0 ≤ i)
    (hi : i < array.length) (hj0 : 0 ≤ j) (hj : j < array.length) :
    (∃ out, Swap_array array i j = some out ∧ out.length = array.length ∧
      out[i.toNat]? = array[j.toNat]? ∧ out[j.toNat]? = array[i.toNat]? ∧
      (∀ k : Nat, (k : Int) ≠ i → (k : Int) ≠ j → out[k]? = array[k]?) ∧
      (i = j → out = array)) ∧
    (∀ (T : Type) (arr : List T) (p q : Nat), p < arr.length → q < arr.length →
      ∃ out, Swap_T_array arr p q = some out ∧ out.length = arr.length ∧
        out[p]? = arr[q]? ∧ out[q]? = arr[p]? ∧
        (∀ k : Nat, k ≠ p → k ≠ q → out[k]? = arr[k]?) ∧ (p = q → out = arr)) := by
  constructor
  · obtain ⟨a, rfl⟩ : ∃ a : Nat, i = (a : Int) := ⟨i.toNat, by omega⟩
    obtain ⟨b, rfl⟩ : ∃ b : Nat, j = (b : Int) := ⟨j.toNat, by omega⟩
    have ha : a < array.length := by omega
    have hb : b < array.length := by omega
    obtain ⟨h1, h2, h3, h4, h5⟩ := exchange_spec array a b ha hb
    refine ⟨_, Swap_array_eq array a b ha hb, h1, ?_, ?_, ?_, ?_⟩
    · simpa using h2
    · simpa using h3
    · intro k hka hkb
      exact h4 k (by omega) (by omega)
    · intro e
      exact h5 (by omega)
  · intro T arr p q hp hq
    obtain ⟨h1, h2, h3, h4, h5⟩ := exchange_spec arr p q hp hq
    exact ⟨_, Swap_T_array_eq arr p q hp hq, h1, h2, h3, h4, h5⟩

theorem C15_swap_exchanges_two_elements_witness :
    (0 : Int) ≤ 0 ∧ (0 : Int) < ([7, 8, 9] : List Int).length ∧ (0 : Int) ≤ 2 ∧
    (2 : Int) < ([7, 8, 9] : List Int).length ∧
    ((∃ out, Swap_array [7, 8, 9] 0 2 = some out ∧ out.length = [7, 8, 9].length ∧
      out[(0 : Int).toNat]? = ([7, 8, 9] : List Int)[(2 : Int).toNat]? ∧
      out[(2 : Int).toNat]? = ([7, 8, 9] : List Int)[(0 : Int).toNat]? ∧
      (∀ k : Nat, (k : Int) ≠ 0 → (k : Int) ≠ 2 → out[k]? = ([7, 8, 9] : List Int)[k]?) ∧
      ((0 : Int) = 2 → out = [7, 8, 9])) ∧
    (∀ (T : Type) (arr : List T) (p q : Nat), p < arr.length → q < arr.length →
      ∃ out, Swap_T_array arr p q = some out ∧ out.length = arr.length ∧
        out[p]? = arr[q]? ∧ out[q]? = arr[p]? ∧
        (∀ k : Nat, k ≠ p → k ≠ q → out[k]? = arr[k]?) ∧ (p = q → out = arr))) :=
  ⟨by decide, by decide, by decide, by decide,
    C15_swap_exchanges_two_elements [7, 8, 9] 0 2 (by decide) (by decide) (by decide)
      (by decide)⟩

/-- C16: for every vector of length `n`, the loop of `main` that calls `Swap`
on the elements `i` and `n - 1 - i` for `i = 0 .. n/2 - 1` leaves the vector
equal to the reverse of its original contents, through `Swap(int&, int&)` as
well as through `Swap(int[], int, int)`; the two loops of `main`, which take
`n` from `const int size = intvec.size();`, are that loop whenever `n` fits
`int`; for `[1, 2, 3, 4]` the result is `[4, 3, 2, 1]`. -/
theorem C16_swap_loop_reverses (intvec : List Int) :
    main_reverse_ref.loop (intvec.length : Int) (intvec.length / 2) 0 intvec
      = some intvec.reverse ∧
    main_reverse_array.loop (intvec.length : Int) (intvec.length / 2) 0 intvec
      = some intvec.reverse ∧
    (intvec.length < 2147483648 →
      main_reverse_ref intvec = some intvec.reverse ∧
      main_reverse_array intvec = some intvec.reverse) ∧
    main_reverse_ref [1, 2, 3, 4] = some [4, 3, 2, 1] ∧
    main_reverse_array [1, 2, 3, 4] = some [4, 3, 2, 1] := by
  obtain ⟨out1, hrun1, hout1⟩ :=
    main_reverse_ref_loop_spec intvec (intvec.length / 2) 0 intvec (by omega)
      (Mirrored.start intvec)
  obtain ⟨out2, hrun2, hout2⟩ :=
    main_reverse_array_loop_spec intvec (intvec.length / 2) 0 intvec (by omega)
      (Mirrored.start intvec)
  rw [hout1.finish] at hrun1
  rw [hout2.finish] at hrun2
  refine ⟨hrun1, hrun2, ?_, by decide, by decide⟩
  intro hfit
  constructor
  · rw [main_reverse_ref, toInt_of_lt _ hfit, half_toNat, hrun1]
  · rw [main_reverse_array, toInt_of_lt _ hfit, half_toNat, hrun2]

theorem C16_swap_loop_reverses_witness :
    ([6, 0, -3, 2, 2] : List Int).length < 2147483648 ∧
    main_reverse_ref [6, 0, -3, 2, 2] = some ([6, 0, -3, 2, 2] : List Int).reverse ∧
    main_reverse_array [6, 0, -3, 2, 2] = some ([6, 0, -3, 2, 2] : List Int).reverse :=
  ⟨by decide, (C16_swap_loop_reverses [6, 0, -3, 2, 2]).2.2.1 (by decide)⟩

end SwapCpp

namespace FunctionPointers

/-! ## The six maps compute the same memory -/

theorem map2_loop_eq (input : Nat) (f : Int → Int) (output : Nat) :
    ∀ (k i : Nat) (mem : List Int),
      map2.loop input f output k i mem = map1.loop input f output k i mem := by
  intro k
  induction k with
  | zero => intro i mem; rfl
  | succ k ih => intro i mem; simp only [map2.loop, map1.loop, ih]

theorem map3_loop_eq (input : Nat) (f : Int → Int) (output : Nat) :
    ∀ (k i : Nat) (mem : List Int),
      map3.loop input f output k i mem = map1.loop input f output k i mem := by
  intro k
  induction k with
  | zero => intro i mem; rfl
  | succ k ih => intro i mem; simp only [map3.loop, map1.loop, ih]

theorem map4_loop_eq (input : Nat) (f : Int → Int) (output : Nat) :
    ∀ (k i : Nat) (mem : List Int),
      map4.loop input f output k i mem = map1.loop input f output k i mem := by
  intro k
  induction k with
  | zero => intro i mem; rfl
  | succ k ih => intro i mem; simp only [map4.loop, map1.loop, ih]

theorem map5_loop_eq (input : Nat) (f : Int → Int) (output : Nat) :
    ∀ (k i : Nat) (mem : List Int),
      map5.loop input f output k i mem = map1.loop input f output k i mem := by
  intro k
  induction k with
  | zero => intro i mem; rfl
  | succ k ih => intro i mem; simp only [map5.loop, map1.loop, ih]

theorem map6_loop_eq (input : Nat) (f : Int → Int) (output : Nat) :
    ∀ (k i : Nat) (mem : List Int),
      map6.loop input f output k i mem = map1.loop input f output k i mem := by
  intro k
  induction k with
  | zero => intro i mem; rfl
  | succ k ih => intro i mem; simp only [map6.loop, map1.loop, ih]

/-- The loop of `map1` from the counter `i` on, when the cells written so far
hold the images and every other cell still holds what it held at the call: the
loop returns, the `size` cells of `output` then hold the images of the cells of
`input` as they were at the call, and no other cell has changed. -/
theorem map1_loop_spec (orig : List Int) (input : Nat) (f : Int → Int) (output size : Nat)
    (hin : input + size ≤ orig.length) (hout : output + size ≤ orig.length)
    (hsep : output ≤ input ∨ input + size ≤ output) :
    ∀ (k i : Nat) (mem : List Int), i + k = size → mem.length = orig.length →
      (∀ j, j < i → mem[output + j]? = (orig[input + j]?).map f) →
      (∀ p, p < output ∨ output + i ≤ p → mem[p]? = orig[p]?) →
      ∃ out, map1.loop input f output k i mem = some out ∧ out.length = orig.length ∧
        (∀ j, j < size → out[output + j]? = (orig[input + j]?).map f) ∧
        (∀ p, p < output ∨ output + size ≤ p → out[p]? = orig[p]?) := by
  intro k
  induction k with
  | zero =>
    intro i mem hik hlen hdone hrest
    have e : i = size := by omega
    subst e
    exact ⟨mem, rfl, hlen, hdone, hrest⟩
  | succ k ih =>
    intro i mem hik hlen hdone hrest
    have hii : input + i < orig.length := by omega
    have hread : mem[input + i]? = some (orig.get ⟨input + i, hii⟩) := by
      rw [hrest (input + i) (by omega), List.getElem?_eq_getElem hii]
      rfl
    have hw : output + i < mem.length := by omega
    obtain ⟨out, hrun, hres⟩ :=
      ih (i + 1) (mem.set (output + i) (f (orig.get ⟨input + i, hii⟩))) (by omega)
        (by simp [hlen])
        (by
          intro j hj
          by_cases e : j = i
          · subst e
            rw [List.getElem?_set_self hw, List.getElem?_eq_getElem hii]
            rfl
          · rw [List.getElem?_set_ne (by omega)]
            exact hdone j (by omega))
        (by
          intro p hp
          rw [List.getElem?_set_ne (by omega)]
          exact hrest p (by omega))
    refine ⟨out, ?_, hres⟩
    rw [map1.loop, hread]
    simp only [hw, if_true]
    exact hrun

/-! ## The claim about `functionpointers.c` -/

/-- C17: for every `int` array `input`, function `f` from `int` to `int` and
`size`, the six functions `map1` to `map6` produce the same output array, namely
`output[i] = f(input[i])` for every `i < size`, where `input[i]` is the element
at the call; no cell outside `output` changes.  The two arrays lie in the
memory and are one array, two disjoint arrays, or `output` starts before
`input`.  Without any condition the six functions agree.  With the input
`[1, 2, 3, 4]` and `square_int` the output is `[1, 4, 9, 16]`, whatever the
output array held, and squaring that output in place gives `[1, 16, 81, 256]`. -/
theorem C17_six_maps_agree (mem : List Int) (input : Nat) (f : Int → Int)
    (output size : Nat) (hin : input + size ≤ mem.length) (hout : output + size ≤ mem.length)
    (hsep : output ≤ input ∨ input + size ≤ output) :
    (∃ out, map1 mem input f output size = some out ∧ map2 mem input f output size = some out ∧
      map3 mem input f output size = some out ∧ map4 mem input f output size = some out ∧
      map5 mem input f output size = some out ∧ map6 mem input f output size = some out ∧
      out.length = mem.length ∧
      (∀ i, i < size → out[output + i]? = (mem[input + i]?).map f) ∧
      (∀ p, p < output ∨ output + size ≤ p → out[p]? = mem[p]?)) ∧
    (∀ (m : List Int) (a : Nat) (g : Int → Int) (b n : Nat),
      map2 m a g b n = map1 m a g b n ∧ map3 m a g b n = map1 m a g b n ∧
      map4 m a g b n = map1 m a g b n ∧ map5 m a g b n = map1 m a g b n ∧
      map6 m a g b n = map1 m a g b n) ∧
    (∀ o0 o1 o2 o3 : Int,
      map1 [1, 2, 3, 4, o0, o1, o2, o3] 0 square_int 4 4 = some [1, 2, 3, 4, 1, 4, 9, 16]) ∧
    map1 [1, 2, 3, 4, 1, 4, 9, 16] 4 square_int 4 4 = some [1, 2, 3, 4, 1, 16, 81, 256] := by
  have hall : ∀ (m : List Int) (a : Nat) (g : Int → Int) (b n : Nat),
      map2 m a g b n = map1 m a g b n ∧ map3 m a g b n = map1 m a g b n ∧
      map4 m a g b n = map1 m a g b n ∧ map5 m a g b n = map1 m a g b n ∧
      map6 m a g b n = map1 m a g b n := by
    intro m a g b n
    exact ⟨map2_loop_eq a g b n 0 m, map3_loop_eq a g b n 0 m, map4_loop_eq a g b n 0 m,
      map5_loop_eq a g b n 0 m, map6_loop_eq a g b n 0 m⟩
  refine ⟨?_, hall, ?_, by decide⟩
  · obtain ⟨out, hrun, hlen, himg, hrest⟩ :=
      map1_loop_spec mem input f output size hin hout hsep size 0 mem (by omega) rfl
        (fun j hj => absurd hj (Nat.not_lt_zero j)) (fun p _ => rfl)
    have h1 : map1 mem input f output size = some out := hrun
    obtain ⟨e2, e3, e4, e5, e6⟩ := hall mem input f output size
    exact ⟨out, h1, e2.trans h1, e3.trans h1, e4.trans h1, e5.trans h1, e6.trans h1, hlen,
      himg, hrest⟩
  · intro o0 o1 o2 o3
    rfl

theorem C17_six_maps_agree_witness :
    0 + 3 ≤ ([5, -1, 2, 0, 0, 0] : List Int).length ∧
    3 + 3 ≤ ([5, -1, 2, 0, 0, 0] : List Int).length ∧ (3 ≤ 0 ∨ 0 + 3 ≤ 3) ∧
    ∃ out, map1 [5, -1, 2, 0, 0, 0] 0 (fun v => v + 1) 3 3 = some out ∧
      map2 [5, -1, 2, 0, 0, 0] 0 (fun v => v + 1) 3 3 = some out ∧
      map3 [5, -1, 2, 0, 0, 0] 0 (fun v => v + 1) 3 3 = some out ∧
      map4 [5, -1, 2, 0, 0, 0] 0 (fun v => v + 1) 3 3 = some out ∧
      map5 [5, -1, 2, 0, 0, 0] 0 (fun v => v + 1) 3 3 = some out ∧
      map6 [5, -1, 2, 0, 0, 0] 0 (fun v => v + 1) 3 3 = some out ∧
      out.length = ([5, -1, 2, 0, 0, 0] : List Int).length ∧
      (∀ i, i < 3 → out[3 + i]? =
        (([5, -1, 2, 0, 0, 0] : List Int)[0 + i]?).map (fun v => v + 1)) ∧
      (∀ p, p < 3 ∨ 3 + 3 ≤ p → out[p]? = ([5, -1, 2, 0, 0, 0] : List Int)[p]?) :=
  ⟨by decide, by decide, by decide,
    (C17_six_maps_agree [5, -1, 2, 0, 0, 0] 0 (fun v => v + 1) 3 3 (by decide) (by decide)
      (by decide)).1⟩

end FunctionPointers

namespace MinMaxC

/-! ## The parenthesised macros on arguments without side effects -/

theorem MIN_pure (x y : Exp) (a b : Int) (s : Vars) (hx : x s = some (a, s))
    (hy : y s = some (b, s)) : MIN x y s = some (min a b, s) := by
  simp only [MIN, cond, lt, hx, hy]
  by_cases h : a < b
  · simp [h, hx, min_eq_left (le_of_lt h)]
  · simp [h, hy, min_eq_right (not_lt.mp h)]

theorem MAX_pure (x y : Exp) (a b : Int) (s : Vars) (hx : x s = some (a, s))
    (hy : y s = some (b, s)) : MAX x y s = some (max a b, s) := by
  simp only [MAX, cond, gt, hx, hy]
  by_cases h : a > b
  · simp [h, hx, max_eq_left (le_of_lt h)]
  · simp [h, hy, max_eq_right (not_lt.mp h)]

/-! ## The claim about the parenthesised macros -/

/-- C18: for all `int` values `a` and `b` given as arguments without side
effects (expressions `x` and `y` that evaluate to `a` and to `b` and leave the
variables as they are), the parenthesised macro `MIN(x, y)` evaluates to the
smaller of `a` and `b` and `MAX(x, y)` to the larger; as the operand of a larger
expression it behaves the same, `2 * MIN(x, y)` is `2 *` the smaller (its value
is twice the smaller whenever that is an `int`), and likewise `2 * MAX(x, y)`;
the first nine expressions of `test2` yield 3, 5, 6, 10, 6, 10, 3, 13, 0. -/
theorem C18_parenthesised_min_max (x y : Exp) (a b : Int) (s : Vars)
    (hx : x s = some (a, s)) (hy : y s = some (b, s)) :
    MIN x y s = some (min a b, s) ∧ MAX x y s = some (max a b, s) ∧
    mul (lit 2) (MIN x y) s = mul (lit 2) (lit (min a b)) s ∧
    mul (lit 2) (MAX x y) s = mul (lit 2) (lit (max a b)) s ∧
    (inRange (2 * min a b) → mul (lit 2) (MIN x y) s = some (2 * min a b, s)) ∧
    (inRange (2 * max a b) → mul (lit 2) (MAX x y) s = some (2 * max a b, s)) ∧
    test2_first_nine = some ([3, 5, 6, 10, 6, 10, 3, 13, 0], Vars.mk 8 5) := by
  have hmin := MIN_pure x y a b s hx hy
  have hmax := MAX_pure x y a b s hx hy
  refine ⟨hmin, hmax, ?_, ?_, ?_, ?_, by decide⟩
  · simp only [mul, arith, lit, hmin]
  · simp only [mul, arith, lit, hmax]
  · intro hr
    simp only [mul, arith, lit, hmin, hr, if_true]
  · intro hr
    simp only [mul, arith, lit, hmax, hr, if_true]

theorem C18_parenthesised_min_max_witness :
    sub var_x var_y (Vars.mk 8 5) = some (3, Vars.mk 8 5) ∧
    add var_x var_y (Vars.mk 8 5) = some (13, Vars.mk 8 5) ∧
    (MIN (sub var_x var_y) (add var_x var_y) (Vars.mk 8 5) = some (min 3 13, Vars.mk 8 5) ∧
      MAX (sub var_x var_y) (add var_x var_y) (Vars.mk 8 5) = some (max 3 13, Vars.mk 8 5) ∧
      mul (lit 2) (MIN (sub var_x var_y) (add var_x var_y)) (Vars.mk 8 5)
        = mul (lit 2) (lit (min 3 13)) (Vars.mk 8 5) ∧
      mul (lit 2) (MAX (sub var_x var_y) (add var_x var_y)) (Vars.mk 8 5)
        = mul (lit 2) (lit (max 3 13)) (Vars.mk 8 5) ∧
      (inRange (2 * min 3 13) →
        mul (lit 2) (MIN (sub var_x var_y) (add var_x var_y)) (Vars.mk 8 5)
          = some (2 * min 3 13, Vars.mk 8 5)) ∧
      (inRange (2 * max 3 13) →
        mul (lit 2) (MAX (sub var_x var_y) (add var_x var_y)) (Vars.mk 8 5)
          = some (2 * max 3 13, Vars.mk 8 5)) ∧
      test2_first_nine = some ([3, 5, 6, 10, 6, 10, 3, 13, 0], Vars.mk 8 5)) :=
  ⟨by decide, by decide,
    C18_parenthesised_min_max (sub var_x var_y) (add var_x var_y) 3 13 (Vars.mk 8 5)
      (by decide) (by decide)⟩

/-! ## The parenthesised `MIN` on arguments with side effects -/

/-- C23: with the parenthesised `MIN` and `int` variables `x` and `y`, no
increment overflowing, `MIN(x++, y++)` evaluates one argument twice: when
`x < y` is false it yields `y + 1` and leaves `x` incremented once and `y`
twice; when `x < y` it yields `x + 1` and leaves `x` incremented twice and `y`
once.  For `x = 8`, `y = 5` it yields 6 with `x = 9`, `y = 7`, and
`MIN(++x, ++y)` yields 7 with `x = 9`, `y = 7`; lines 90-98 of `test2` print
6, 9, 7, 7, 9, 7. -/
theorem C23_min_evaluates_argument_twice (s : Vars) (hx1 : inRange (s.x + 1))
    (hy1 : inRange (s.y + 1)) :
    (¬ s.x < s.y → inRange (s.y + 2) →
      MIN x_postinc y_postinc s = some (s.y + 1, Vars.mk (s.x + 1) (s.y + 2))) ∧
    (s.x < s.y → inRange (s.x + 2) →
      MIN x_postinc y_postinc s = some (s.x + 1, Vars.mk (s.x + 2) (s.y + 1))) ∧
    MIN x_postinc y_postinc (Vars.mk 8 5) = some (6, Vars.mk 9 7) ∧
    MIN x_preinc y_preinc (Vars.mk 8 5) = some (7, Vars.mk 9 7) ∧
    test2_last_six = some ([6, 9, 7, 7, 9, 7], Vars.mk 9 7) := by
  have hcmp : lt x_postinc y_postinc s
      = some (if s.x < s.y then 1 else 0, Vars.mk (s.x + 1) (s.y + 1)) := by
    simp only [lt, x_postinc, y_postinc, hx1, hy1, if_true]
  refine ⟨?_, ?_, by decide, by decide, by decide⟩
  · intro h hy2
    have hy2' : inRange (s.y + 1 + 1) := by
      have e : s.y + 1 + 1 = s.y + 2 := by omega
      rw [e]; exact hy2
    have e : s.y + 1 + 1 = s.y + 2 := by omega
    simp only [MIN, cond, hcmp, if_neg h, y_postinc, hy2', if_true, e]
    simpa using hy2
  · intro h hx2
    have hx2' : inRange (s.x + 1 + 1) := by
      have e : s.x + 1 + 1 = s.x + 2 := by omega
      rw [e]; exact hx2
    have e : s.x + 1 + 1 = s.x + 2 := by omega
    simp only [MIN, cond, hcmp, if_pos h, x_postinc, hx2', if_true, e]
    simpa using hx2

theorem C23_min_evaluates_argument_twice_witness :
    inRange ((Vars.mk 2 10).x + 1) ∧ inRange ((Vars.mk 2 10).y + 1) ∧
    ((¬ (Vars.mk 2 10).x < (Vars.mk 2 10).y → inRange ((Vars.mk 2 10).y + 2) →
      MIN x_postinc y_postinc (Vars.mk 2 10)
        = some ((Vars.mk 2 10).y + 1, Vars.mk ((Vars.mk 2 10).x + 1) ((Vars.mk 2 10).y + 2))) ∧
    ((Vars.mk 2 10).x < (Vars.mk 2 10).y → inRange ((Vars.mk 2 10).x + 2) →
      MIN x_postinc y_postinc (Vars.mk 2 10)
        = some ((Vars.mk 2 10).x + 1, Vars.mk ((Vars.mk 2 10).x + 2) ((Vars.mk 2 10).y + 1))) ∧
    MIN x_postinc y_postinc (Vars.mk 8 5) = some (6, Vars.mk 9 7) ∧
    MIN x_preinc y_preinc (Vars.mk 8 5) = some (7, Vars.mk 9 7) ∧
    test2_last_six = some ([6, 9, 7, 7, 9, 7], Vars.mk 9 7)) :=
  ⟨by decide, by decide,
    C23_min_evaluates_argument_twice (Vars.mk 2 10) (by decide) (by decide)⟩

end MinMaxC

namespace StringsCpp

/-! ## The loop that deletes the spaces -/

/-- The search of `std::find` for `value` from the end of `pre` on stops after
the longest run of other characters. -/
theorem find_loop_spec (value : Char) :
    ∀ (suf pre : List Char),
      find.loop (pre ++ suf) value suf.length pre.length =
        pre.length + (suf.takeWhile (fun c => decide (c ≠ value))).length := by
  intro suf
  induction suf with
  | nil => intro pre; rfl
  | cons a rest ih =>
    intro pre
    have hget : (pre ++ a :: rest)[pre.length]? = some a := by
      rw [List.getElem?_append_right (Nat.le_refl _), Nat.sub_self]
      exact List.getElem?_cons_zero
    by_cases h : a = value
    · subst h
      simp [find.loop, hget]
    · have hstep := ih (pre ++ [a])
      simp only [List.append_assoc, List.singleton_append, List.length_append,
        List.length_singleton] at hstep
      simp only [List.length_cons, find.loop, hget, Option.some.injEq, if_neg h, hstep]
      rw [List.takeWhile_cons_of_pos (by simpa using h), List.length_cons]
      omega

/-- Every string splits into its longest leading run without a space and a rest
that is empty or starts with a space. -/
theorem split_at_space (suf : List Char) :
    ∃ w r, suf = w ++ r ∧ (∀ c ∈ w, c ≠ ' ') ∧ (r = [] ∨ ∃ r1, r = ' ' :: r1) ∧
      (suf.takeWhile (fun c => decide (c ≠ ' '))).length = w.length := by
  refine ⟨suf.takeWhile (fun c => decide (c ≠ ' ')), suf.dropWhile (fun c => decide (c ≠ ' ')),
    (List.takeWhile_append_dropWhile _ suf).symm, ?_, ?_, rfl⟩
  · intro c hc
    simpa using List.mem_takeWhile_imp hc
  · cases hr : suf.dropWhile (fun c => decide (c ≠ ' ')) with
    | nil => exact Or.inl rfl
    | cons c r1 =>
      have hh := List.head?_dropWhile_not (fun c => decide (c ≠ ' ')) suf
      rw [hr] at hh
      have hc : c = ' ' := by simpa using hh
      subst hc
      exact Or.inr ⟨r1, rfl⟩

theorem noSpaces_of_no_space (w : List Char) (hw : ∀ c ∈ w, c ≠ ' ') : noSpaces w = w := by
  unfold noSpaces
  rw [List.filter_eq_self]
  intro c hc
  simpa using hw c hc

/-- The loop from the iterator at the end of `pre` on, with `suf` still ahead and
a budget of one step more than the length of `suf`: it deletes every space of
`suf`; it finishes when `suf` is empty or ends in a space, and otherwise it ends
by calling `erase` with the end iterator. -/
theorem erase_loop_spec :
    ∀ (n : Nat) (suf pre : List Char) (fuel : Nat), suf.length ≤ n →
      suf.length + 1 ≤ fuel →
      erase_loop fuel (pre ++ suf) pre.length =
        if suf = [] ∨ suf.getLast? = some ' ' then Outcome.finished (pre ++ noSpaces suf)
        else Outcome.eraseAtEnd (pre ++ noSpaces suf) := by
  intro n
  induction n with
  | zero =>
    intro suf pre fuel hn hf
    have hs : suf = [] := List.length_eq_zero.mp (by omega)
    subst hs
    obtain ⟨k, rfl⟩ : ∃ k, fuel = k + 1 := ⟨fuel - 1, by omega⟩
    simp [erase_loop, noSpaces]
  | succ n ih =>
    intro suf pre fuel hn hf
    obtain ⟨k, rfl⟩ : ∃ k, fuel = k + 1 := ⟨fuel - 1, by omega⟩
    by_cases hs : suf = []
    · subst hs
      simp [erase_loop, noSpaces]
    · have hpos : 0 < suf.length := List.length_pos.mpr hs
      have hbegin : ¬ pre.length = (pre ++ suf).length := by
        rw [List.length_append]; omega
      have hfind : find (pre ++ suf) pre.length (pre ++ suf).length ' ' =
          pre.length + (suf.takeWhile (fun c => decide (c ≠ ' '))).length := by
        unfold find
        have e : (pre ++ suf).length - pre.length = suf.length := by
          rw [List.length_append]; omega
        rw [e]
        exact find_loop_spec ' ' suf pre
      obtain ⟨w, r, hsuf, hw, hr, hlen⟩ := split_at_space suf
      rw [hlen] at hfind
      rw [erase_loop, if_neg hbegin, hfind]
      subst hsuf
      rcases hr with rfl | ⟨r1, rfl⟩
      · -- no space ahead: `find` answers `end()`
        have hnone : erase (pre ++ (w ++ [])) (pre.length + w.length) = none := by
          simp [erase]
        rw [hnone]
        have hlast : ¬ (w ++ [] = [] ∨ (w ++ []).getLast? = some ' ') := by
          rintro (e | e)
          · exact hs e
          · have hm := List.mem_of_getLast?_eq_some e
            rw [List.append_nil] at hm
            exact hw ' ' hm rfl
        rw [if_neg hlast, List.append_nil, noSpaces_of_no_space w hw]
      · -- a space ahead: it is erased and the loop goes on behind it
        have hsome : erase (pre ++ (w ++ ' ' :: r1)) (pre.length + w.length) =
            some ((pre ++ w) ++ r1, (pre ++ w).length) := by
          have hlt : pre.length + w.length < (pre ++ (w ++ ' ' :: r1)).length := by
            simp only [List.length_append, List.length_cons]; omega
          have he : (pre ++ (w ++ ' ' :: r1)).eraseIdx (pre.length + w.length)
              = (pre ++ w) ++ r1 := by
            rw [← List.append_assoc,
              List.eraseIdx_append_of_length_le (by rw [List.length_append])]
            rw [List.length_append, Nat.sub_self]
            rfl
          rw [erase, if_pos hlt, he, List.length_append]
        rw [hsome]
        have hrec := ih r1 (pre ++ w) k
          (by simp only [List.length_append, List.length_cons] at hn; omega)
          (by simp only [List.length_append, List.length_cons] at hf; omega)
        simp only [] at hrec ⊢
        rw [hrec]
        have hfilter : noSpaces (w ++ ' ' :: r1) = w ++ noSpaces r1 := by
          unfold noSpaces
          rw [List.filter_append, List.filter_cons_of_neg (by simp)]
          congr 1
          exact noSpaces_of_no_space w hw
        have hcond : (w ++ ' ' :: r1 = [] ∨ (w ++ ' ' :: r1).getLast? = some ' ') ↔
            (r1 = [] ∨ r1.getLast? = some ' ') := by
          cases r1 with
          | nil => simp
          | cons b r2 => simp
        rw [hfilter, List.append_assoc]
        by_cases hc : r1 = [] ∨ r1.getLast? = some ' '
        · rw [if_pos hc, if_pos (hcond.mpr hc)]
        · rw [if_neg hc, if_neg (fun h => hc (hcond.mp h))]

/-! ## The claim about the loop that deletes the spaces -/

/-- C22: the loop of lines 85-88 does not avoid `erase` on the end iterator.  On
the string `twolines` of the program it deletes the spaces and then calls
`erase` with `end()`, the string being
`Tworoadsdivergedinayellowwood,AndsorryIcouldnottravelboth.` at that moment.
In general, with a budget of one step more than the length: on a non-empty
string that does not end in a space the loop deletes every space and then calls
`erase` with the end iterator; only on the empty string and on a string that
ends in a space does it finish, with all spaces deleted and the other
characters in their original order. -/
theorem C22_erase_loop_reaches_end_iterator :
    delete_spaces (twolines.length + 1) twolines =
      Outcome.eraseAtEnd
        (String.toList "Tworoadsdivergedinayellowwood,AndsorryIcouldnottravelboth.") ∧
    delete_spaces 2 ['a'] = Outcome.eraseAtEnd ['a'] ∧
    (∀ (s : List Char) (fuel : Nat), s.length + 1 ≤ fuel → s ≠ [] → s.getLast? ≠ some ' ' →
      delete_spaces fuel s = Outcome.eraseAtEnd (noSpaces s)) ∧
    (∀ (s : List Char) (fuel : Nat), s.length + 1 ≤ fuel → (s = [] ∨ s.getLast? = some ' ') →
      delete_spaces fuel s = Outcome.finished (noSpaces s)) := by
  refine ⟨by decide, by decide, ?_, ?_⟩
  · intro s fuel hf hne hlast
    have h := erase_loop_spec s.length s [] fuel (Nat.le_refl _) hf
    rw [if_neg (fun hc => hc.elim hne hlast)] at h
    exact h
  · intro s fuel hf hc
    have h := erase_loop_spec s.length s [] fuel (Nat.le_refl _) hf
    rw [if_pos hc] at h
    exact h

end StringsCpp
